import Mathlib

/-!
# DBSCAN clusterer (`main.go`): embedding and verified properties

The Go program clusters geo-tagged points with DBSCAN, using an R-tree from the
external package `rtreego` to find neighbourhood candidates.

Modelling choices.
* `float64` coordinates and `eps` are exact rationals (`ℚ`); `math.Hypot dx dy <= eps`
  is the exact comparison `0 ≤ eps ∧ dx² + dy² ≤ eps²`.
* Go slices are lists; a slice index out of range (a Go panic) is `none`.
* The external R-tree is a parameter (`RtreeLib`).  Two descriptions of it are used:
  `RtreeLib.Contract`, the contract of the specification, with closed rectangles, and
  `RtreeLib.StrictContract`, the rectangle test of the linked package `rtreego`, for which
  rectangles that only touch do not intersect.  For `eps > 0` both give the same
  neighbourhoods; for `eps = 0` the squares have no width and the test of `rtreego` finds
  no candidate at all.
* The `expandCluster` loop walks a list that it extends while walking; it is
  embedded with a fuel argument, and running out of fuel is `none`.  `dbscan`
  passes fuel `len(points)² + 1`, which is shown to be enough.
* `main` is embedded from the parsed flags and the result of `readInput` on; the reader,
  the JSON encoder and the process exit are not modelled.
* `expandLoopLog`, `outerLoopLog` and `dbscanLog` are the loops with a ghost log of the
  calls of `regionQuery`; they are shown to compute what the loops compute.
-/

namespace Clusterer

/-! ## Data model -/

/-- Go `type Point struct { ID string; Lat, Lon float64 }`. -/
structure Point where
  ID : String
  Lat : ℚ
  Lon : ℚ
  deriving DecidableEq, Repr

/-- Go `type ClusterOutput struct { CentroidLat, CentroidLon float64; IDs []string }`. -/
structure ClusterOutput where
  CentroidLat : ℚ
  CentroidLon : ℚ
  IDs : List String
  deriving DecidableEq, Repr

/-- A two-dimensional `rtreego.Rect`: the corner `p` of least coordinates and the opposite
corner `q`. -/
structure Rect where
  pLat : ℚ
  pLon : ℚ
  qLat : ℚ
  qLon : ℚ
  deriving DecidableEq, Repr

/-- Go `type rtreeItem struct { rect rtreego.Rect; index int }`. -/
structure rtreeItem where
  rect : Rect
  index : Nat
  deriving DecidableEq, Repr

/-- The call `rtreego.Point{lat, lon}.ToRect(tol)`: the square centred on the point that
extends by `tol` along each axis. -/
def ToRect (lat lon tol : ℚ) : Rect :=
  { pLat := lat - tol, pLon := lon - tol, qLat := lat + tol, qLon := lon + tol }

/-- Modelled from the spec: the rectangle-intersection test of the Spatial Index (the
package `rtreego` is not part of the repository).  Two rectangles intersect when their
projections overlap on both axes; the rectangles are closed, so contact on the boundary
counts. -/
def intersect (r1 r2 : Rect) : Bool :=
  decide (r1.pLat ≤ r2.qLat ∧ r2.pLat ≤ r1.qLat ∧ r1.pLon ≤ r2.qLon ∧ r2.pLon ≤ r1.qLon)

/-- The part of the external package `rtreego` that `main.go` uses: `NewTree`, `Insert`
and `SearchIntersect`. -/
structure RtreeLib where
  Rtree : Type
  NewTree : Rtree
  Insert : Rtree → rtreeItem → Rtree
  SearchIntersect : Rtree → Rect → List rtreeItem

/-- Modelled from the spec: the contract of the Spatial Index (`rtreego` is an external
package).  A search returns exactly the inserted entries whose rectangle intersects the
query rectangle, each once, in an order of the index's choosing. -/
def RtreeLib.Contract (L : RtreeLib) : Prop :=
  ∀ (items : List rtreeItem) (rect : Rect),
    (L.SearchIntersect (items.foldl L.Insert L.NewTree) rect).Perm
      (items.filter (fun it => intersect it.rect rect))

/-- Modelled from the spec: a reference Spatial Index that keeps the entries in insertion
order and answers a search by a linear scan. -/
def scanLib : RtreeLib where
  Rtree := List rtreeItem
  NewTree := []
  Insert := fun t it => t ++ [it]
  SearchIntersect := fun t rect => t.filter (fun it => intersect it.rect rect)

/-- The rectangle test of the package `rtreego` that the program links (its `intersect`):
two rectangles do not intersect when, on some axis, `b2 <= a1 || b1 <= a2` for the
intervals `[a1, b1]` and `[a2, b2]`; contact on the boundary does not count.  The package is
external to the repository. -/
def intersectStrict (r1 r2 : Rect) : Bool :=
  decide (¬ (r2.qLat ≤ r1.pLat ∨ r1.qLat ≤ r2.pLat) ∧
    ¬ (r2.qLon ≤ r1.pLon ∨ r1.qLon ≤ r2.pLon))

/-- The behaviour of the linked package `rtreego` (external to the repository): a search
returns exactly the inserted entries whose rectangle intersects the query rectangle by the
test `intersectStrict`, each once, in an order of the index's choosing. -/
def RtreeLib.StrictContract (L : RtreeLib) : Prop :=
  ∀ (items : List rtreeItem) (rect : Rect),
    (L.SearchIntersect (items.foldl L.Insert L.NewTree) rect).Perm
      (items.filter (fun it => intersectStrict it.rect rect))

/-- A reference index with the rectangle test of `rtreego`: the entries in insertion order,
searched by a linear scan with `intersectStrict`. -/
def strictLib : RtreeLib where
  Rtree := List rtreeItem
  NewTree := []
  Insert := fun t it => t ++ [it]
  SearchIntersect := fun t rect => t.filter (fun it => intersectStrict it.rect rect)

/-! ## The program -/

/-- The test `math.Hypot(dx, dy) <= eps` in exact arithmetic. -/
def hypotLe (dx dy eps : ℚ) : Bool :=
  decide (0 ≤ eps ∧ dx * dx + dy * dy ≤ eps * eps)

/-- Go `contains(slice, val)`. -/
def contains : List Nat → Nat → Bool
  | [], _ => false
  | x :: rest, val => if x = val then true else contains rest val

/-- The body of the candidate loop of Go `regionQuery`, for the query point `q`: keep the
candidate `item` when its point lies within `eps` of `q`. -/
def regionStep (points : List Point) (q : Point) (eps : ℚ) (neighbors : List Nat)
    (item : rtreeItem) : Option (List Nat) := do
  let p ← points[item.index]?
  let dx := q.Lat - p.Lat
  let dy := q.Lon - p.Lon
  if hypotLe dx dy eps then pure (neighbors ++ [item.index]) else pure neighbors

/-- Go `regionQuery(points, tree, idx, eps)`: the candidates of the index search that lie
within distance `eps` of point `idx`, in the order of the candidates. -/
def regionQuery (L : RtreeLib) (points : List Point) (tree : L.Rtree) (idx : Nat) (eps : ℚ) :
    Option (List Nat) := do
  let q ← points[idx]?
  let rect := ToRect q.Lat q.Lon eps
  let candidates := L.SearchIntersect tree rect
  candidates.foldlM (regionStep points q eps) []

/-- The loop of Go `expandCluster`, from position `j` of the work list `neighbors`.
Returns the final cluster and visited vector. -/
def expandLoop (L : RtreeLib) (points : List Point) (tree : L.Rtree) (eps : ℚ) (minPts : Int) :
    Nat → Nat → List Nat → List Nat → List Bool → Option (List Nat × List Bool)
  | 0, j, neighbors, cluster, visited =>
    if j < neighbors.length then none else some (cluster, visited)
  | fuel + 1, j, neighbors, cluster, visited =>
    match neighbors[j]? with
    | none => some (cluster, visited)
    | some idx => do
      let v ← visited[idx]?
      let (neighbors, visited) ←
        if !v then do
          let visited := visited.set idx true
          let nbrs2 ← regionQuery L points tree idx eps
          if (nbrs2.length : Int) ≥ minPts then
            pure (neighbors ++ nbrs2, visited)
          else
            pure (neighbors, visited)
        else
          pure (neighbors, visited)
      let cluster := if !contains cluster idx then cluster ++ [idx] else cluster
      expandLoop L points tree eps minPts fuel (j + 1) neighbors cluster visited

/-- Go `expandCluster(points, &cluster, neighbors, visited, tree, eps, minPts)`. -/
def expandCluster (L : RtreeLib) (points : List Point) (cluster neighbors : List Nat)
    (visited : List Bool) (tree : L.Rtree) (eps : ℚ) (minPts : Int) :
    Option (List Nat × List Bool) :=
  expandLoop L points tree eps minPts (points.length * points.length + 1) 0 neighbors
    cluster visited

/-- The first loop of Go `dbscan`: the entries `rtreeItem{rect, index: i}` in input order. -/
def indexItems (points : List Point) (eps : ℚ) : List rtreeItem :=
  points.enum.map (fun ip => { rect := ToRect ip.2.Lat ip.2.Lon eps, index := ip.1 })

/-- The second loop of Go `dbscan` (`for i := range points`), over the indices `is` still
to come. -/
def outerLoop (L : RtreeLib) (points : List Point) (tree : L.Rtree) (eps : ℚ) (minPts : Int) :
    List Nat → List Bool → List (List Nat) → Option (List (List Nat))
  | [], _, clusters => some clusters
  | i :: is, visited, clusters => do
    let v ← visited[i]?
    if v then
      outerLoop L points tree eps minPts is visited clusters
    else do
      let visited := visited.set i true
      let neighbors ← regionQuery L points tree i eps
      if (neighbors.length : Int) < minPts then
        outerLoop L points tree eps minPts is visited clusters
      else do
        let (cluster, visited) ← expandCluster L points [i] neighbors visited tree eps minPts
        outerLoop L points tree eps minPts is visited (clusters ++ [cluster])

/-- The clustering phase of Go `dbscan` (lines 66-86): the clusters as lists of point
indices. -/
def dbscanClusters (L : RtreeLib) (points : List Point) (eps : ℚ) (minPts : Int) :
    Option (List (List Nat)) :=
  let tree := (indexItems points eps).foldl L.Insert L.NewTree
  let visited := List.replicate points.length false
  outerLoop L points tree eps minPts (List.range points.length) visited []

/-- The inner loop of the result assembly: the running sums and the identifiers of the
members `cluster`. -/
def sumMembers (points : List Point) :
    List Nat → ℚ → ℚ → List String → Option (ℚ × ℚ × List String)
  | [], sumLat, sumLon, ids => some (sumLat, sumLon, ids)
  | idx :: rest, sumLat, sumLon, ids => do
    let p ← points[idx]?
    sumMembers points rest (sumLat + p.Lat) (sumLon + p.Lon) (ids ++ [p.ID])

/-- The result assembly of Go `dbscan` (lines 88-104). -/
def assemble (points : List Point) : List (List Nat) → Option (List ClusterOutput)
  | [] => some []
  | cluster :: rest => do
    let (sumLat, sumLon, ids) ← sumMembers points cluster 0 0 []
    let n : ℚ := cluster.length
    let out : ClusterOutput :=
      { CentroidLat := sumLat / n, CentroidLon := sumLon / n, IDs := ids }
    let outs ← assemble points rest
    pure (out :: outs)

/-- Go `dbscan(points, eps, minPts)`. -/
def dbscan (L : RtreeLib) (points : List Point) (eps : ℚ) (minPts : Int) :
    Option (List ClusterOutput) := do
  let clusters ← dbscanClusters L points eps minPts
  assemble points clusters

/-! ## Notions used to state the properties -/

/-- Point `j` lies within distance `eps` of point `i` (both indices valid). -/
def withinEps (points : List Point) (eps : ℚ) (i j : Nat) : Bool :=
  match points[i]?, points[j]? with
  | some p, some q => hypotLe (p.Lat - q.Lat) (p.Lon - q.Lon) eps
  | _, _ => false

/-- The eps-neighbourhood of point `i` by brute force: every index within `eps` of `i`, in
ascending order. -/
def neighbourhood (points : List Point) (eps : ℚ) (i : Nat) : List Nat :=
  (List.range points.length).filter (withinEps points eps i)

/-- Point `i` is a core point: a valid index whose eps-neighbourhood has at least `minPts`
points. -/
def isCore (points : List Point) (eps : ℚ) (minPts : Int) (i : Nat) : Bool :=
  decide (i < points.length ∧ minPts ≤ ((neighbourhood points eps i).length : Int))

/-- One link of a chain of core points: both ends are core and within `eps` of each other. -/
def CoreStep (points : List Point) (eps : ℚ) (minPts : Int) (a b : Nat) : Prop :=
  isCore points eps minPts a = true ∧ isCore points eps minPts b = true ∧
    withinEps points eps a b = true

/-- Point `q` is joined to `p` by a chain of core points with consecutive points within
`eps`. -/
def CoreReach (points : List Point) (eps : ℚ) (minPts : Int) : Nat → Nat → Prop :=
  Relation.ReflTransGen (CoreStep points eps minPts)

/-- Entry `i` of the visited vector is `true`. -/
def Vis (visited : List Bool) (i : Nat) : Prop := visited[i]? = some true

/-- Invariant of the loop of `expandCluster` for the cluster seeded at `s`, where `V0` is the
visited vector before the seed was marked, `W` the part of the work list still to be walked,
`C` the cluster so far and `V` the visited vector. -/
structure ExpInv (points : List Point) (eps : ℚ) (minPts : Int) (V0 : List Bool) (s : Nat)
    (W C : List Nat) (V : List Bool) : Prop where
  len : V.length = points.length
  mono : ∀ i, Vis V0 i → Vis V i
  cvis : ∀ m ∈ C, Vis V m
  prov : ∀ m, m ∈ C ∨ m ∈ W → m = s ∨ ∃ q, CoreReach points eps minPts s q ∧
    isCore points eps minPts q = true ∧ ¬ Vis V0 q ∧ (q ∈ C ∨ q ∈ W) ∧
    withinEps points eps q m = true
  clos : ∀ p, Vis V p → ¬ Vis V0 p → (p ∈ C ∨ p ∈ W) ∧
    (isCore points eps minPts p = true → ∀ j, withinEps points eps p j = true → j ∈ C ∨ j ∈ W)
  head : C.head? = some s
  nodup : C.Nodup
  slt : s < points.length

/-- What holds of the clusters found so far, whatever the stage of the outer loop: each
cluster starts with a core seed, has no repeated member and consists of the seed and the
points within `eps` of a core point chained to the seed; the seed of a cluster is in no
earlier cluster; the seeds are strictly increasing. -/
structure ClustersOk (points : List Point) (eps : ℚ) (minPts : Int)
    (clusters : List (List Nat)) : Prop where
  char : ∀ c ∈ clusters, ∃ s, c.head? = some s ∧ isCore points eps minPts s = true ∧
    c.Nodup ∧ ∀ m, m ∈ c ↔ (m = s ∨ ∃ q, CoreReach points eps minPts s q ∧
      withinEps points eps q m = true)
  fresh : clusters.Pairwise (fun c c' => ∀ s', c'.head? = some s' → s' ∉ c)
  seeds : ∃ seeds : List Nat, clusters.map List.head? = seeds.map some ∧
    seeds.Pairwise (fun a b => a < b)

/-- Invariant of the outer loop of `dbscan`, for the visited vector `V` and the clusters
found so far. -/
structure OutInv (points : List Point) (eps : ℚ) (minPts : Int) (V : List Bool)
    (clusters : List (List Nat)) : Prop where
  len : V.length = points.length
  cvis : ∀ c ∈ clusters, ∀ m ∈ c, Vis V m
  cover : ∀ p, Vis V p → isCore points eps minPts p = true →
    ∃ c ∈ clusters, p ∈ c ∧ ∀ j, withinEps points eps p j = true → j ∈ c
  char : ∀ c ∈ clusters, ∃ s, c.head? = some s ∧ isCore points eps minPts s = true ∧
    c.Nodup ∧ ∀ m, m ∈ c ↔ (m = s ∨ ∃ q, CoreReach points eps minPts s q ∧
      withinEps points eps q m = true)
  fresh : clusters.Pairwise (fun c c' => ∀ s', c'.head? = some s' → s' ∉ c)

/-- The points of a cluster, in member order. -/
def clusterMembers (points : List Point) (cluster : List Nat) : List Point :=
  cluster.filterMap (fun idx => points[idx]?)

/-- The output record the specification asks for: the arithmetic mean of the members'
latitudes, the mean of their longitudes, and their identifiers in member order. -/
def meanRecord (members : List Point) : ClusterOutput :=
  { CentroidLat := (members.map (fun p => p.Lat)).sum / (members.length : ℚ)
    CentroidLon := (members.map (fun p => p.Lon)).sum / (members.length : ℚ)
    IDs := members.map (fun p => p.ID) }

/-- Point `q` lies within `eps` of point `p`; the relation of `withinEps` on the points
themselves rather than on their positions in the input. -/
def nearPt (eps : ℚ) (p q : Point) : Bool :=
  hypotLe (p.Lat - q.Lat) (p.Lon - q.Lon) eps

/-- The point `p` occurs in the input and at least `minPts` input points lie within `eps` of
it: a core point, stated without reference to input positions. -/
def corePt (points : List Point) (eps : ℚ) (minPts : Int) (p : Point) : Prop :=
  p ∈ points ∧ minPts ≤ ((points.countP (nearPt eps p) : Nat) : Int)

/-- One link of a chain of core points, on the points themselves. -/
def PtStep (points : List Point) (eps : ℚ) (minPts : Int) (a b : Point) : Prop :=
  corePt points eps minPts a ∧ corePt points eps minPts b ∧ nearPt eps a b = true

/-- Chains of core points, on the points themselves. -/
def PtReach (points : List Point) (eps : ℚ) (minPts : Int) : Point → Point → Prop :=
  Relation.ReflTransGen (PtStep points eps minPts)

/-- The identifier `x` belongs to an input point within `eps` of a core point chained to
`p`. -/
def IdNear (points : List Point) (eps : ℚ) (minPts : Int) (p : Point) (x : String) : Prop :=
  ∃ q r, PtReach points eps minPts p q ∧ r ∈ points ∧ nearPt eps q r = true ∧ r.ID = x

/-- How a run of the program ends: `log.Fatalf` with a message, the clusters printed on
standard output, or a run-time panic. -/
inductive RunResult where
  | fatal (msg : String)
  | printed (clusters : List ClusterOutput)
  | panicked
  deriving DecidableEq, Repr

/-- Go `main`, given the values of the flags `-eps` and `-minPts` and the result of
`readInput(os.Stdin)`: a read error is fatal, otherwise the result of `dbscan` is printed. -/
def main (L : RtreeLib) (eps : ℚ) (minPts : Int) (input : Except String (List Point)) :
    RunResult :=
  match input with
  | .error err => .fatal ("failed to read input: " ++ err)
  | .ok points =>
    match dbscan L points eps minPts with
    | some clusters => .printed clusters
    | none => .panicked

/-- The loop of Go `expandCluster` with a ghost log of the calls of `regionQuery`: one entry
per call, holding the index queried and whether the work list was extended with the result.
Apart from the log it is `expandLoop`. -/
def expandLoopLog (L : RtreeLib) (points : List Point) (tree : L.Rtree) (eps : ℚ)
    (minPts : Int) :
    Nat → Nat → List Nat → List Nat → List Bool → List (Nat × Bool) →
      Option (List Nat × List Bool × List (Nat × Bool))
  | 0, j, neighbors, cluster, visited, log =>
    if j < neighbors.length then none else some (cluster, visited, log)
  | fuel + 1, j, neighbors, cluster, visited, log =>
    match neighbors[j]? with
    | none => some (cluster, visited, log)
    | some idx => do
      let v ← visited[idx]?
      let (neighbors, visited, log) ←
        if !v then do
          let visited := visited.set idx true
          let nbrs2 ← regionQuery L points tree idx eps
          if (nbrs2.length : Int) ≥ minPts then
            pure (neighbors ++ nbrs2, visited, log ++ [(idx, true)])
          else
            pure (neighbors, visited, log ++ [(idx, false)])
        else
          pure (neighbors, visited, log)
      let cluster := if !contains cluster idx then cluster ++ [idx] else cluster
      expandLoopLog L points tree eps minPts fuel (j + 1) neighbors cluster visited log

/-- The outer loop of Go `dbscan` with the ghost log of the calls of `regionQuery`; the
query made by the outer loop itself is logged as not extending a work list. -/
def outerLoopLog (L : RtreeLib) (points : List Point) (tree : L.Rtree) (eps : ℚ)
    (minPts : Int) :
    List Nat → List Bool → List (List Nat) → List (Nat × Bool) →
      Option (List (List Nat) × List (Nat × Bool))
  | [], _, clusters, log => some (clusters, log)
  | i :: is, visited, clusters, log => do
    let v ← visited[i]?
    if v then
      outerLoopLog L points tree eps minPts is visited clusters log
    else do
      let visited := visited.set i true
      let neighbors ← regionQuery L points tree i eps
      let log := log ++ [(i, false)]
      if (neighbors.length : Int) < minPts then
        outerLoopLog L points tree eps minPts is visited clusters log
      else do
        let (cluster, visited, log) ←
          expandLoopLog L points tree eps minPts (points.length * points.length + 1) 0
            neighbors [i] visited log
        outerLoopLog L points tree eps minPts is visited (clusters ++ [cluster]) log

/-- The clustering phase of Go `dbscan` with the ghost log of the calls of `regionQuery`. -/
def dbscanLog (L : RtreeLib) (points : List Point) (eps : ℚ) (minPts : Int) :
    Option (List (List Nat) × List (Nat × Bool)) :=
  let tree := (indexItems points eps).foldl L.Insert L.NewTree
  let visited := List.replicate points.length false
  outerLoopLog L points tree eps minPts (List.range points.length) visited [] []

/-! ## Test inputs -/

/-- The chain of scenario S4. -/
def chainPoints : List Point :=
  [⟨"p0", 0, 0⟩, ⟨"p1", 5/1000, 0⟩, ⟨"p2", 10/1000, 0⟩, ⟨"p3", 15/1000, 0⟩, ⟨"p4", 20/1000, 0⟩]

/-- A border point (index 0) that the outer loop examines and rejects before its cluster is
seeded at index 1, and an isolated point (index 4). -/
def borderFirstPoints : List Point :=
  [⟨"b", 2, 0⟩, ⟨"k", 1, 0⟩, ⟨"x", 0, 0⟩, ⟨"y", 0, 0⟩, ⟨"z", 10, 10⟩]

/-- Two blobs `{0,1,2}` and `{4,5,6}` linked by the non-core bridge point `3`. -/
def bridgePoints : List Point :=
  [⟨"a", 0, 0⟩, ⟨"a1", -1, 0⟩, ⟨"a2", -1, 0⟩, ⟨"m", 1, 0⟩, ⟨"c", 2, 0⟩, ⟨"c1", 3, 0⟩,
   ⟨"c2", 3, 0⟩]

/-- Three points at (0,0), one at (1,1) and two at (2,2). -/
def coincidentPoints : List Point :=
  [⟨"u0", 0, 0⟩, ⟨"u1", 0, 0⟩, ⟨"v", 1, 1⟩, ⟨"w0", 2, 2⟩, ⟨"u2", 0, 0⟩, ⟨"w1", 2, 2⟩]
/-- The four isolated points of scenario S3. -/
def allNoisePoints : List Point :=
  [⟨"n0", 0, 0⟩, ⟨"n1", 1, 1⟩, ⟨"n2", 2, 2⟩, ⟨"n3", 3, 3⟩]
/-- The six points of scenario S1. -/
def s1Points : List Point :=
  [⟨"a", 0, 0⟩, ⟨"b", 1/1000, 0⟩, ⟨"c", 0, 1/1000⟩, ⟨"d", 1/1000, 1/1000⟩,
   ⟨"e", 5/10000, 5/10000⟩, ⟨"f", 10, 10⟩]

/-! ## Arithmetic of the distance test -/

theorem hypotLe_symm (dx dy eps : ℚ) : hypotLe (-dx) (-dy) eps = hypotLe dx dy eps := by
  simp [hypotLe]

theorem hypotLe_zero {eps : ℚ} (h : 0 ≤ eps) : hypotLe 0 0 eps = true := by
  simp only [hypotLe, decide_eq_true_eq]
  exact ⟨h, by nlinarith⟩

theorem hypotLe_bounds {dx dy eps : ℚ} (h : hypotLe dx dy eps = true) :
    0 ≤ eps ∧ -eps ≤ dx ∧ dx ≤ eps ∧ -eps ≤ dy ∧ dy ≤ eps := by
  simp only [hypotLe, decide_eq_true_eq] at h
  obtain ⟨h0, h1⟩ := h
  refine ⟨h0, ?_, ?_, ?_, ?_⟩
  · by_contra hc
    nlinarith [mul_self_nonneg dy]
  · by_contra hc
    nlinarith [mul_self_nonneg dy]
  · by_contra hc
    nlinarith [mul_self_nonneg dx]
  · by_contra hc
    nlinarith [mul_self_nonneg dx]

theorem intersect_of_hypotLe {p q : Point} {eps : ℚ}
    (h : hypotLe (q.Lat - p.Lat) (q.Lon - p.Lon) eps = true) :
    intersect (ToRect p.Lat p.Lon eps) (ToRect q.Lat q.Lon eps) = true := by
  obtain ⟨h0, h1, h2, h3, h4⟩ := hypotLe_bounds h
  simp only [intersect, ToRect, decide_eq_true_eq]
  refine ⟨?_, ?_, ?_, ?_⟩ <;> linarith

/-! ## The neighbourhood relation -/

theorem withinEps_lt {points : List Point} {eps : ℚ} {i j : Nat}
    (h : withinEps points eps i j = true) : i < points.length ∧ j < points.length := by
  unfold withinEps at h
  split at h
  · rename_i p q hp hq
    exact ⟨(List.getElem?_eq_some.1 hp).1, (List.getElem?_eq_some.1 hq).1⟩
  · exact absurd h (by simp)

theorem withinEps_symm (points : List Point) (eps : ℚ) (i j : Nat) :
    withinEps points eps i j = withinEps points eps j i := by
  unfold withinEps
  cases hi : points[i]? <;> cases hj : points[j]? <;> simp
  rename_i p q
  rw [← hypotLe_symm]
  simp

theorem withinEps_self {points : List Point} {eps : ℚ} {i : Nat} (h0 : 0 ≤ eps)
    (hi : i < points.length) : withinEps points eps i i = true := by
  unfold withinEps
  rw [List.getElem?_eq_getElem hi]
  simpa using hypotLe_zero h0

theorem mem_neighbourhood {points : List Point} {eps : ℚ} {i j : Nat} :
    j ∈ neighbourhood points eps i ↔ withinEps points eps i j = true := by
  unfold neighbourhood
  rw [List.mem_filter, List.mem_range]
  exact ⟨fun h => h.2, fun h => ⟨(withinEps_lt h).2, h⟩⟩

theorem neighbourhood_nodup (points : List Point) (eps : ℚ) (i : Nat) :
    (neighbourhood points eps i).Nodup :=
  (List.nodup_range _).filter _

theorem neighbourhood_length_le (points : List Point) (eps : ℚ) (i : Nat) :
    (neighbourhood points eps i).length ≤ points.length := by
  unfold neighbourhood
  exact (List.length_filter_le _ _).trans (by simp)

/-! ## The neighbourhood query -/

theorem regionStep_eq (points : List Point) (eps : ℚ) (idx : Nat) (q : Point)
    (hq : points[idx]? = some q) (acc : List Nat) (c : rtreeItem)
    (hc : c.index < points.length) :
    regionStep points q eps acc c
      = some (if withinEps points eps idx c.index then acc ++ [c.index] else acc) := by
  have hw : withinEps points eps idx c.index
      = hypotLe (q.Lat - (points[c.index]).Lat) (q.Lon - (points[c.index]).Lon) eps := by
    unfold withinEps
    rw [hq, List.getElem?_eq_getElem hc]
  unfold regionStep
  rw [List.getElem?_eq_getElem hc, hw]
  simp only [Option.some_bind, Option.bind_eq_bind]
  split <;> rfl

theorem regionQuery_fold (points : List Point) (eps : ℚ) (idx : Nat) (q : Point)
    (hq : points[idx]? = some q) (cs : List rtreeItem)
    (hcs : ∀ it ∈ cs, it.index < points.length) (acc : List Nat) :
    cs.foldlM (regionStep points q eps) acc
    = some (acc ++ (cs.map (fun it => it.index)).filter (withinEps points eps idx)) := by
  induction cs generalizing acc with
  | nil => simp
  | cons c cs ih =>
    have hc : c.index < points.length := hcs c (List.mem_cons_self _ _)
    rw [List.foldlM_cons, regionStep_eq points eps idx q hq acc c hc]
    simp only [Option.some_bind, Option.bind_eq_bind]
    rw [ih (fun it h => hcs it (List.mem_cons_of_mem _ h))]
    by_cases hh : withinEps points eps idx c.index = true
    · simp [List.filter_cons, hh]
    · simp [List.filter_cons, hh]

theorem mem_indexItems {points : List Point} {eps : ℚ} {it : rtreeItem}
    (h : it ∈ indexItems points eps) :
    ∃ p, points[it.index]? = some p ∧ it.rect = ToRect p.Lat p.Lon eps := by
  unfold indexItems at h
  rw [List.mem_map] at h
  obtain ⟨⟨k, p⟩, hkp, rfl⟩ := h
  exact ⟨p, List.mk_mem_enum_iff_getElem?.1 hkp, rfl⟩

theorem indexItems_index (points : List Point) (eps : ℚ) :
    (indexItems points eps).map (fun it => it.index) = List.range points.length := by
  unfold indexItems
  rw [List.map_map]
  exact List.enum_map_fst points

theorem filter_map_filter_of_imp {α β : Type} (f : α → β) (P : α → Bool) (Q : β → Bool)
    (l : List α) (h : ∀ a ∈ l, Q (f a) = true → P a = true) :
    ((l.filter P).map f).filter Q = (l.map f).filter Q := by
  induction l with
  | nil => rfl
  | cons a l ih =>
    have ih1 := ih (fun b hb => h b (List.mem_cons_of_mem _ hb))
    have ha := h a (List.mem_cons_self _ _)
    by_cases hQ : Q (f a) = true
    · simp [List.filter_cons, ha hQ, hQ, ih1]
    · by_cases hP : P a = true
      · simp [List.filter_cons, hP, hQ, ih1]
      · simp [List.filter_cons, hP, hQ, ih1]

/-- Under the index contract, `regionQuery` on a valid index returns a list that is a
rearrangement of the brute-force neighbourhood. -/
theorem regionQuery_spec (L : RtreeLib) (hL : L.Contract) (points : List Point) (eps : ℚ)
    (idx : Nat) (hidx : idx < points.length) :
    ∃ l, regionQuery L points ((indexItems points eps).foldl L.Insert L.NewTree) idx eps
        = some l ∧ l.Perm (neighbourhood points eps idx) := by
  have hq : points[idx]? = some points[idx] := List.getElem?_eq_getElem hidx
  have hperm := hL (indexItems points eps) (ToRect (points[idx]).Lat (points[idx]).Lon eps)
  have hcs : ∀ it ∈ L.SearchIntersect ((indexItems points eps).foldl L.Insert L.NewTree)
      (ToRect (points[idx]).Lat (points[idx]).Lon eps), it.index < points.length := by
    intro it hit
    obtain ⟨p, hp, _⟩ := mem_indexItems ((List.mem_filter.1 (hperm.mem_iff.1 hit)).1)
    exact (List.getElem?_eq_some.1 hp).1
  refine ⟨[] ++ ((L.SearchIntersect ((indexItems points eps).foldl L.Insert L.NewTree)
      (ToRect (points[idx]).Lat (points[idx]).Lon eps)).map (fun it => it.index)).filter
      (withinEps points eps idx), ?_, ?_⟩
  · unfold regionQuery
    rw [hq]
    simp only [Option.some_bind, Option.bind_eq_bind]
    exact regionQuery_fold points eps idx _ hq _ hcs []
  · rw [List.nil_append]
    refine ((hperm.map _).filter _).trans ?_
    rw [filter_map_filter_of_imp, indexItems_index]
    · exact List.Perm.refl _
    · intro it hit hw
      obtain ⟨p, hp, hr⟩ := mem_indexItems hit
      rw [hr]
      apply intersect_of_hypotLe
      unfold withinEps at hw
      rw [hq, hp] at hw
      exact hw

/-! ## The visited vector -/

theorem vis_lt {V : List Bool} {i : Nat} (h : Vis V i) : i < V.length :=
  (List.getElem?_eq_some.1 h).1

theorem vis_set {V : List Bool} {idx p : Nat} :
    Vis (V.set idx true) p ↔ (p = idx ∧ idx < V.length) ∨ Vis V p := by
  unfold Vis
  rw [List.getElem?_set]
  by_cases h : idx = p
  · subst h
    by_cases h2 : idx < V.length
    · simp [h2]
    · simp only [h2, if_true, if_false, and_false, false_or]
      rw [List.getElem?_eq_none (by omega)]
  · have h' : ¬ p = idx := fun e => h e.symm
    simp [h, h']

theorem vis_set_of_vis {V : List Bool} {idx p : Nat} (h : Vis V p) : Vis (V.set idx true) p :=
  vis_set.2 (Or.inr h)

theorem not_vis_of_false {V : List Bool} {i : Nat} (h : V[i]? = some false) : ¬ Vis V i := by
  unfold Vis
  rw [h]
  simp

theorem count_false_set {V : List Bool} {idx : Nat} (h : V[idx]? = some false) :
    (V.set idx true).count false + 1 = V.count false := by
  obtain ⟨hlt, hv⟩ := List.getElem?_eq_some.1 h
  rw [List.count_set true false V idx hlt, hv]
  have hpos : 0 < V.count false := by
    rw [List.count_pos_iff]
    rw [← hv]
    exact List.getElem_mem _
  simp
  omega

theorem contains_iff (C : List Nat) (x : Nat) : contains C x = true ↔ x ∈ C := by
  induction C with
  | nil => simp [contains]
  | cons a C ih =>
    unfold contains
    by_cases h : a = x
    · simp [h]
    · have h' : ¬ x = a := fun e => h e.symm
      simp [h, h', ih]

/-! ## Core points and chains -/

theorem isCore_lt {points : List Point} {eps : ℚ} {minPts : Int} {i : Nat}
    (h : isCore points eps minPts i = true) : i < points.length := by
  simp only [isCore, decide_eq_true_eq] at h
  exact h.1

theorem coreReach_core {points : List Point} {eps : ℚ} {minPts : Int} {s q : Nat}
    (hs : isCore points eps minPts s = true) (h : CoreReach points eps minPts s q) :
    isCore points eps minPts q = true := by
  induction h with
  | refl => exact hs
  | tail _ hstep _ => exact hstep.2.1

theorem coreStep_symm {points : List Point} {eps : ℚ} {minPts : Int} {a b : Nat}
    (h : CoreStep points eps minPts a b) : CoreStep points eps minPts b a :=
  ⟨h.2.1, h.1, by rw [withinEps_symm]; exact h.2.2⟩

theorem coreReach_symm {points : List Point} {eps : ℚ} {minPts : Int} {a b : Nat}
    (h : CoreReach points eps minPts a b) : CoreReach points eps minPts b a := by
  induction h with
  | refl => exact Relation.ReflTransGen.refl
  | tail _ hstep ih => exact Relation.ReflTransGen.head (coreStep_symm hstep) ih

/-! ## The expansion loop keeps its invariant -/

section Expansion

variable {points : List Point} {eps : ℚ} {minPts : Int}

theorem ExpInv.init {V0 : List Bool} {s : Nat} {l : List Nat}
    (hlen : V0.length = points.length) (hv : V0[s]? = some false)
    (hc : isCore points eps minPts s = true)
    (hl : ∀ j, j ∈ l ↔ withinEps points eps s j = true) :
    ExpInv points eps minPts V0 s l [s] (V0.set s true) where
  len := by simp [hlen]
  mono := fun i hi => vis_set_of_vis hi
  cvis := by
    intro m hm
    rw [List.mem_singleton] at hm
    subst hm
    exact vis_set.2 (Or.inl ⟨rfl, (List.getElem?_eq_some.1 hv).1⟩)
  prov := by
    intro m hm
    rcases hm with hm | hm
    · exact Or.inl (List.mem_singleton.1 hm)
    · exact Or.inr ⟨s, Relation.ReflTransGen.refl, hc, not_vis_of_false hv,
        Or.inl (List.mem_singleton_self s), (hl m).1 hm⟩
  clos := by
    intro p hp hp0
    rcases vis_set.1 hp with ⟨rfl, _⟩ | hp'
    · exact ⟨Or.inl (List.mem_singleton_self _), fun _ j hj => Or.inr ((hl j).2 hj)⟩
    · exact absurd hp' hp0
  head := rfl
  nodup := List.nodup_singleton s
  slt := isCore_lt hc

theorem ExpInv.idx_lt {V0 : List Bool} {s idx : Nat} {rest C : List Nat} {V : List Bool}
    (h : ExpInv points eps minPts V0 s (idx :: rest) C V) : idx < points.length := by
  rcases h.prov idx (Or.inr (List.mem_cons_self _ _)) with rfl | ⟨q, _, _, _, _, hq⟩
  · exact h.slt
  · exact (withinEps_lt hq).2

theorem ExpInv.reach_idx {V0 : List Bool} {s idx : Nat} {rest C : List Nat} {V : List Bool}
    (h : ExpInv points eps minPts V0 s (idx :: rest) C V)
    (hc : isCore points eps minPts idx = true) : CoreReach points eps minPts s idx := by
  rcases h.prov idx (Or.inr (List.mem_cons_self _ _)) with rfl | ⟨q, hr, hq, _, _, hw⟩
  · exact Relation.ReflTransGen.refl
  · exact Relation.ReflTransGen.tail hr ⟨hq, hc, hw⟩

theorem ExpInv.visit_core {V0 : List Bool} {s idx : Nat} {rest C l : List Nat} {V : List Bool}
    (h : ExpInv points eps minPts V0 s (idx :: rest) C V) (hv : V[idx]? = some false)
    (hc : isCore points eps minPts idx = true)
    (hl : ∀ j, j ∈ l ↔ withinEps points eps idx j = true) :
    ExpInv points eps minPts V0 s (idx :: (rest ++ l)) C (V.set idx true) where
  len := by simp [h.len]
  mono := fun i hi => vis_set_of_vis (h.mono i hi)
  cvis := fun m hm => vis_set_of_vis (h.cvis m hm)
  prov := by
    intro m hm
    have hold : ∀ m, m ∈ C ∨ m ∈ idx :: rest → m = s ∨ ∃ q, CoreReach points eps minPts s q ∧
        isCore points eps minPts q = true ∧ ¬ Vis V0 q ∧ (q ∈ C ∨ q ∈ idx :: (rest ++ l)) ∧
        withinEps points eps q m = true := by
      intro m hm
      rcases h.prov m hm with hm | ⟨q, h1, h2, h3, h4, h5⟩
      · exact Or.inl hm
      · refine Or.inr ⟨q, h1, h2, h3, ?_, h5⟩
        rcases h4 with h4 | h4
        · exact Or.inl h4
        · rcases List.mem_cons.1 h4 with h4 | h4
          · exact Or.inr (List.mem_cons.2 (Or.inl h4))
          · exact Or.inr (List.mem_cons.2 (Or.inr (List.mem_append_left _ h4)))
    rcases hm with hm | hm
    · exact hold m (Or.inl hm)
    · rcases List.mem_cons.1 hm with hm | hm
      · exact hold m (Or.inr (List.mem_cons.2 (Or.inl hm)))
      · rcases List.mem_append.1 hm with hm | hm
        · exact hold m (Or.inr (List.mem_cons.2 (Or.inr hm)))
        · exact Or.inr ⟨idx, h.reach_idx hc, hc,
            fun h0 => not_vis_of_false hv (h.mono idx h0),
            Or.inr (List.mem_cons_self _ _), (hl m).1 hm⟩
  clos := by
    intro p hp hp0
    rcases vis_set.1 hp with ⟨rfl, _⟩ | hp'
    · exact ⟨Or.inr (List.mem_cons_self _ _), fun _ j hj =>
        Or.inr (List.mem_cons.2 (Or.inr (List.mem_append_right _ ((hl j).2 hj))))⟩
    · obtain ⟨h1, h2⟩ := h.clos p hp' hp0
      have hsub : ∀ j, j ∈ C ∨ j ∈ idx :: rest → j ∈ C ∨ j ∈ idx :: (rest ++ l) := by
        intro j hj
        rcases hj with hj | hj
        · exact Or.inl hj
        · rcases List.mem_cons.1 hj with hj | hj
          · exact Or.inr (List.mem_cons.2 (Or.inl hj))
          · exact Or.inr (List.mem_cons.2 (Or.inr (List.mem_append_left _ hj)))
      exact ⟨hsub p h1, fun hcp j hj => hsub j (h2 hcp j hj)⟩
  head := h.head
  nodup := h.nodup
  slt := h.slt

theorem ExpInv.visit_noncore {V0 : List Bool} {s idx : Nat} {rest C : List Nat}
    {V : List Bool} (h : ExpInv points eps minPts V0 s (idx :: rest) C V)
    (hc : ¬ isCore points eps minPts idx = true) :
    ExpInv points eps minPts V0 s (idx :: rest) C (V.set idx true) where
  len := by simp [h.len]
  mono := fun i hi => vis_set_of_vis (h.mono i hi)
  cvis := fun m hm => vis_set_of_vis (h.cvis m hm)
  prov := h.prov
  clos := by
    intro p hp hp0
    rcases vis_set.1 hp with ⟨rfl, _⟩ | hp'
    · exact ⟨Or.inr (List.mem_cons_self _ _), fun hcp => absurd hcp hc⟩
    · exact h.clos p hp' hp0
  head := h.head
  nodup := h.nodup
  slt := h.slt

theorem ExpInv.pop {V0 : List Bool} {s idx : Nat} {rest C : List Nat} {V : List Bool}
    (h : ExpInv points eps minPts V0 s (idx :: rest) C V) (hv : Vis V idx) :
    ExpInv points eps minPts V0 s rest (if !contains C idx then C ++ [idx] else C) V := by
  have hsub : ∀ j, j ∈ C ∨ j ∈ idx :: rest →
      j ∈ (if !contains C idx then C ++ [idx] else C) ∨ j ∈ rest := by
    intro j hj
    by_cases hin : contains C idx = true
    · simp only [hin, Bool.not_true, Bool.false_eq_true, if_false]
      rcases hj with hj | hj
      · exact Or.inl hj
      · rcases List.mem_cons.1 hj with hj | hj
        · exact Or.inl (hj ▸ (contains_iff C idx).1 hin)
        · exact Or.inr hj
    · simp only [Bool.not_eq_true] at hin
      simp only [hin, Bool.not_false, if_true]
      rcases hj with hj | hj
      · exact Or.inl (List.mem_append_left _ hj)
      · rcases List.mem_cons.1 hj with hj | hj
        · exact Or.inl (List.mem_append_right _ (hj ▸ List.mem_singleton_self _))
        · exact Or.inr hj
  have hback : ∀ j, j ∈ (if !contains C idx then C ++ [idx] else C) ∨ j ∈ rest →
      j ∈ C ∨ j ∈ idx :: rest := by
    intro j hj
    rcases hj with hj | hj
    · by_cases hin : contains C idx = true
      · simp only [hin, Bool.not_true, Bool.false_eq_true, if_false] at hj
        exact Or.inl hj
      · simp only [Bool.not_eq_true] at hin
        simp only [hin, Bool.not_false, if_true] at hj
        rcases List.mem_append.1 hj with hj | hj
        · exact Or.inl hj
        · exact Or.inr (List.mem_cons.2 (Or.inl (List.mem_singleton.1 hj)))
    · exact Or.inr (List.mem_cons_of_mem _ hj)
  refine ⟨h.len, h.mono, ?_, ?_, ?_, ?_, ?_, h.slt⟩
  · intro m hm
    by_cases hin : contains C idx = true
    · simp only [hin, Bool.not_true, Bool.false_eq_true, if_false] at hm
      exact h.cvis m hm
    · simp only [Bool.not_eq_true] at hin
      simp only [hin, Bool.not_false, if_true] at hm
      rcases List.mem_append.1 hm with hm | hm
      · exact h.cvis m hm
      · exact (List.mem_singleton.1 hm) ▸ hv
  · intro m hm
    rcases h.prov m (hback m hm) with hm | ⟨q, h1, h2, h3, h4, h5⟩
    · exact Or.inl hm
    · exact Or.inr ⟨q, h1, h2, h3, hsub q h4, h5⟩
  · intro p hp hp0
    obtain ⟨h1, h2⟩ := h.clos p hp hp0
    exact ⟨hsub p h1, fun hcp j hj => hsub j (h2 hcp j hj)⟩
  · by_cases hin : contains C idx = true
    · simp only [hin, Bool.not_true, Bool.false_eq_true, if_false]
      exact h.head
    · simp only [Bool.not_eq_true] at hin
      simp only [hin, Bool.not_false, if_true]
      rw [List.head?_append, h.head]
      rfl
  · by_cases hin : contains C idx = true
    · simp only [hin, Bool.not_true, Bool.false_eq_true, if_false]
      exact h.nodup
    · have hnot : idx ∉ C := fun hm => hin ((contains_iff C idx).2 hm)
      simp only [Bool.not_eq_true] at hin
      simp only [hin, Bool.not_false, if_true]
      refine List.Nodup.append h.nodup (List.nodup_singleton idx) ?_
      intro a ha hb
      exact hnot ((List.mem_singleton.1 hb) ▸ ha)

/-! ### One iteration of the loop -/

theorem expandLoop_visited (L : RtreeLib) (tree : L.Rtree) (fuel j idx : Nat)
    (neighbors C : List Nat) (V : List Bool) (hj : neighbors[j]? = some idx)
    (hv : V[idx]? = some true) :
    expandLoop L points tree eps minPts (fuel + 1) j neighbors C V
      = expandLoop L points tree eps minPts fuel (j + 1) neighbors
          (if !contains C idx then C ++ [idx] else C) V := by
  rw [expandLoop, hj]
  simp only [hv, Option.some_bind, Option.bind_eq_bind, Bool.not_true, Bool.false_eq_true,
    if_false, Option.pure_def]

theorem expandLoop_core (L : RtreeLib) (tree : L.Rtree) (fuel j idx : Nat)
    (neighbors C l : List Nat) (V : List Bool) (hj : neighbors[j]? = some idx)
    (hv : V[idx]? = some false) (hl : regionQuery L points tree idx eps = some l)
    (hc : minPts ≤ (l.length : Int)) :
    expandLoop L points tree eps minPts (fuel + 1) j neighbors C V
      = expandLoop L points tree eps minPts fuel (j + 1) (neighbors ++ l)
          (if !contains C idx then C ++ [idx] else C) (V.set idx true) := by
  rw [expandLoop, hj]
  simp only [hv, hl, Option.some_bind, Option.bind_eq_bind, Bool.not_false, if_true,
    Option.pure_def, ge_iff_le, hc]

theorem expandLoop_noncore (L : RtreeLib) (tree : L.Rtree) (fuel j idx : Nat)
    (neighbors C l : List Nat) (V : List Bool) (hj : neighbors[j]? = some idx)
    (hv : V[idx]? = some false) (hl : regionQuery L points tree idx eps = some l)
    (hc : ¬ minPts ≤ (l.length : Int)) :
    expandLoop L points tree eps minPts (fuel + 1) j neighbors C V
      = expandLoop L points tree eps minPts fuel (j + 1) neighbors
          (if !contains C idx then C ++ [idx] else C) (V.set idx true) := by
  rw [expandLoop, hj]
  simp only [hv, hl, Option.some_bind, Option.bind_eq_bind, Bool.not_false, if_true,
    Option.pure_def, ge_iff_le, hc, if_false]

theorem expandLoop_done (L : RtreeLib) (tree : L.Rtree) (fuel j : Nat)
    (neighbors C : List Nat) (V : List Bool) (hj : neighbors.length ≤ j) :
    expandLoop L points tree eps minPts fuel j neighbors C V = some (C, V) := by
  cases fuel with
  | zero => rw [expandLoop, if_neg (by omega)]
  | succ fuel => rw [expandLoop, List.getElem?_eq_none hj]

theorem isCore_iff_of_perm {i : Nat} {l : List Nat} (hi : i < points.length)
    (hl : l.Perm (neighbourhood points eps i)) :
    isCore points eps minPts i = true ↔ minPts ≤ (l.length : Int) := by
  simp only [isCore, decide_eq_true_eq, hl.length_eq, hi, true_and]

/-- The loop of `expandCluster` returns, and its result satisfies the invariant with an
empty work list, whenever the fuel covers the work still possible. -/
theorem expandLoop_spec (L : RtreeLib) (tree : L.Rtree)
    (hrq : ∀ i, i < points.length → ∃ l, regionQuery L points tree i eps = some l ∧
      l.Perm (neighbourhood points eps i))
    {V0 : List Bool} {s : Nat} :
    ∀ (fuel j : Nat) (neighbors C : List Nat) (V : List Bool),
      ExpInv points eps minPts V0 s (neighbors.drop j) C V →
      (neighbors.drop j).length + points.length * V.count false ≤ fuel →
      ∃ C' V', expandLoop L points tree eps minPts fuel j neighbors C V = some (C', V') ∧
        ExpInv points eps minPts V0 s [] C' V' := by
  intro fuel
  induction fuel with
  | zero =>
    intro j neighbors C V hinv hfuel
    have hlen : neighbors.length ≤ j := by
      rw [List.length_drop] at hfuel
      omega
    rw [List.drop_eq_nil_of_le hlen] at hinv
    exact ⟨C, V, expandLoop_done L tree 0 j neighbors C V hlen, hinv⟩
  | succ fuel ih =>
    intro j neighbors C V hinv hfuel
    by_cases hlen : neighbors.length ≤ j
    · rw [List.drop_eq_nil_of_le hlen] at hinv
      exact ⟨C, V, expandLoop_done L tree _ j neighbors C V hlen, hinv⟩
    · have hjlt : j < neighbors.length := by omega
      have hj : neighbors[j]? = some neighbors[j] := List.getElem?_eq_getElem hjlt
      rw [List.drop_eq_getElem_cons hjlt] at hinv hfuel
      have hidx : neighbors[j] < points.length := hinv.idx_lt
      have hidxV : neighbors[j] < V.length := by rw [hinv.len]; exact hidx
      cases hv : V[neighbors[j]] with
      | true =>
        have hv' : V[neighbors[j]]? = some true := by
          rw [List.getElem?_eq_getElem hidxV, hv]
        rw [expandLoop_visited L tree fuel j _ neighbors C V hj hv']
        apply ih
        · exact hinv.pop hv'
        · rw [List.length_cons] at hfuel
          omega
      | false =>
        have hv' : V[neighbors[j]]? = some false := by
          rw [List.getElem?_eq_getElem hidxV, hv]
        obtain ⟨l, hl, hperm⟩ := hrq _ hidx
        have hcount := count_false_set hv'
        have hmem : ∀ k, k ∈ l ↔ withinEps points eps neighbors[j] k = true :=
          fun k => (hperm.mem_iff).trans mem_neighbourhood
        have hll : l.length ≤ points.length := by
          rw [hperm.length_eq]
          exact neighbourhood_length_le _ _ _
        have hmul : points.length * (V.count false)
            = points.length * ((V.set neighbors[j] true).count false) + points.length := by
          rw [← hcount, Nat.mul_add, Nat.mul_one]
        by_cases hc : minPts ≤ (l.length : Int)
        · rw [expandLoop_core L tree fuel j _ neighbors C l V hj hv' hl hc]
          apply ih
          · rw [List.drop_append_of_le_length (by omega)]
            exact ((hinv.visit_core hv' ((isCore_iff_of_perm hidx hperm).2 hc) hmem)).pop
              (vis_set.2 (Or.inl ⟨rfl, hidxV⟩))
          · rw [List.drop_append_of_le_length (by omega), List.length_append]
            rw [List.length_cons] at hfuel
            omega
        · rw [expandLoop_noncore L tree fuel j _ neighbors C l V hj hv' hl hc]
          apply ih
          · exact ((hinv.visit_noncore
              (fun hcore => hc ((isCore_iff_of_perm hidx hperm).1 hcore)))).pop
              (vis_set.2 (Or.inl ⟨rfl, hidxV⟩))
          · rw [List.length_cons] at hfuel
            omega

end Expansion

/-! ## The outer loop -/

section Outer

variable {points : List Point} {eps : ℚ} {minPts : Int}

theorem OutInv.mark_noncore {V : List Bool} {clusters : List (List Nat)} {i : Nat}
    (h : OutInv points eps minPts V clusters)
    (hc : ¬ isCore points eps minPts i = true) :
    OutInv points eps minPts (V.set i true) clusters where
  len := by simp [h.len]
  cvis := fun c hc m hm => vis_set_of_vis (h.cvis c hc m hm)
  cover := by
    intro p hp hcp
    rcases vis_set.1 hp with ⟨rfl, _⟩ | hp'
    · exact absurd hcp hc
    · exact h.cover p hp' hcp
  char := h.char
  fresh := h.fresh

/-- Every core point chained to the seed is first visited while the seed's cluster is
expanded. -/
theorem reach_newly_visited {V V' : List Bool} {clusters : List (List Nat)} {i : Nat}
    {C : List Nat} (h : OutInv points eps minPts V clusters)
    (hE : ExpInv points eps minPts V i [] C V') (hv : V[i]? = some false) {q : Nat}
    (hr : CoreReach points eps minPts i q) : Vis V' q ∧ ¬ Vis V q := by
  induction hr with
  | refl =>
    exact ⟨hE.cvis i (List.mem_of_mem_head? hE.head), not_vis_of_false hv⟩
  | @tail a b _ hstep ih =>
    obtain ⟨hva, hna⟩ := ih
    have hbC : b ∈ C := by
      rcases (hE.clos a hva hna).2 hstep.1 b hstep.2.2 with hb | hb
      · exact hb
      · exact absurd hb (List.not_mem_nil _)
    refine ⟨hE.cvis b hbC, ?_⟩
    intro hvb
    obtain ⟨c, hc, _, hcl⟩ := h.cover b hvb hstep.2.1
    have hac : a ∈ c := hcl a (by rw [withinEps_symm]; exact hstep.2.2)
    exact hna (h.cvis c hc a hac)

theorem OutInv.add_cluster {V V' : List Bool} {clusters : List (List Nat)} {i : Nat}
    {C : List Nat} (h : OutInv points eps minPts V clusters)
    (hE : ExpInv points eps minPts V i [] C V') (hv : V[i]? = some false)
    (hc : isCore points eps minPts i = true) :
    OutInv points eps minPts V' (clusters ++ [C]) where
  len := hE.len
  cvis := by
    intro c hc m hm
    rcases List.mem_append.1 hc with hc | hc
    · exact hE.mono m (h.cvis c hc m hm)
    · rw [List.mem_singleton] at hc
      subst hc
      exact hE.cvis m hm
  cover := by
    intro p hp hcp
    by_cases hp0 : Vis V p
    · obtain ⟨c, hc, h1, h2⟩ := h.cover p hp0 hcp
      exact ⟨c, List.mem_append_left _ hc, h1, h2⟩
    · obtain ⟨h1, h2⟩ := hE.clos p hp hp0
      have hnil : ∀ j, j ∈ C ∨ j ∈ ([] : List Nat) → j ∈ C := by
        intro j hj
        rcases hj with hj | hj
        · exact hj
        · exact absurd hj (List.not_mem_nil _)
      exact ⟨C, List.mem_append_right _ (List.mem_singleton_self _), hnil p h1,
        fun j hj => hnil j (h2 hcp j hj)⟩
  char := by
    intro c hcm
    rcases List.mem_append.1 hcm with hcm | hcm
    · exact h.char c hcm
    · rw [List.mem_singleton] at hcm
      subst hcm
      refine ⟨i, hE.head, hc, hE.nodup, ?_⟩
      intro m
      constructor
      · intro hm
        rcases hE.prov m (Or.inl hm) with hm | ⟨q, h1, _, _, _, h5⟩
        · exact Or.inl hm
        · exact Or.inr ⟨q, h1, h5⟩
      · intro hm
        rcases hm with rfl | ⟨q, hr, hw⟩
        · exact List.mem_of_mem_head? hE.head
        · obtain ⟨hvq, hnq⟩ := reach_newly_visited h hE hv hr
          rcases (hE.clos q hvq hnq).2 (coreReach_core hc hr) m hw with hm | hm
          · exact hm
          · exact absurd hm (List.not_mem_nil _)
  fresh := by
    rw [List.pairwise_append]
    refine ⟨h.fresh, List.pairwise_singleton _ _, ?_⟩
    intro c hc c' hc' s' hs'
    rw [List.mem_singleton] at hc'
    subst hc'
    rw [hE.head] at hs'
    cases hs'
    intro hin
    exact not_vis_of_false hv (h.cvis c hc _ hin)

theorem outerLoop_visited (L : RtreeLib) (tree : L.Rtree) (i : Nat) (is : List Nat)
    (V : List Bool) (clusters : List (List Nat)) (hv : V[i]? = some true) :
    outerLoop L points tree eps minPts (i :: is) V clusters
      = outerLoop L points tree eps minPts is V clusters := by
  rw [outerLoop]
  simp only [hv, Option.some_bind, Option.bind_eq_bind, if_true]

theorem outerLoop_noise (L : RtreeLib) (tree : L.Rtree) (i : Nat) (is l : List Nat)
    (V : List Bool) (clusters : List (List Nat)) (hv : V[i]? = some false)
    (hl : regionQuery L points tree i eps = some l) (hc : (l.length : Int) < minPts) :
    outerLoop L points tree eps minPts (i :: is) V clusters
      = outerLoop L points tree eps minPts is (V.set i true) clusters := by
  rw [outerLoop]
  simp only [hv, hl, Option.some_bind, Option.bind_eq_bind, Bool.false_eq_true, if_false,
    hc, if_true]

theorem outerLoop_seed (L : RtreeLib) (tree : L.Rtree) (i : Nat) (is l C : List Nat)
    (V V' : List Bool) (clusters : List (List Nat)) (hv : V[i]? = some false)
    (hl : regionQuery L points tree i eps = some l) (hc : ¬ (l.length : Int) < minPts)
    (hE : expandCluster L points [i] l (V.set i true) tree eps minPts = some (C, V')) :
    outerLoop L points tree eps minPts (i :: is) V clusters
      = outerLoop L points tree eps minPts is V' (clusters ++ [C]) := by
  rw [outerLoop]
  simp only [hv, hl, hE, Option.some_bind, Option.bind_eq_bind, Bool.false_eq_true, if_false,
    hc]

/-- The call of `expandCluster` made by the outer loop for a core seed returns, with the
loop invariant established for an empty work list. -/
theorem expandCluster_seed (L : RtreeLib) (tree : L.Rtree)
    (hrq : ∀ i, i < points.length → ∃ l, regionQuery L points tree i eps = some l ∧
      l.Perm (neighbourhood points eps i))
    {V : List Bool} {i : Nat} {l : List Nat} (hlen : V.length = points.length)
    (hv : V[i]? = some false) (hc : isCore points eps minPts i = true)
    (hperm : l.Perm (neighbourhood points eps i)) :
    ∃ C V', expandCluster L points [i] l (V.set i true) tree eps minPts = some (C, V') ∧
      ExpInv points eps minPts V i [] C V' := by
  unfold expandCluster
  apply expandLoop_spec L tree hrq
  · rw [List.drop_zero]
    exact ExpInv.init hlen hv hc (fun k => (hperm.mem_iff).trans mem_neighbourhood)
  · rw [List.drop_zero]
    have hcount := count_false_set hv
    have hle : V.count false ≤ V.length := List.count_le_length _ _
    have hll : l.length ≤ points.length := by
      rw [hperm.length_eq]
      exact neighbourhood_length_le _ _ _
    rw [hlen] at hle
    have h1 : (V.set i true).count false + 1 ≤ points.length := by omega
    calc l.length + points.length * (V.set i true).count false
        ≤ points.length + points.length * (V.set i true).count false :=
          Nat.add_le_add_right hll _
      _ = points.length * ((V.set i true).count false + 1) := by ring
      _ ≤ points.length * points.length := Nat.mul_le_mul_left _ h1
      _ ≤ points.length * points.length + 1 := Nat.le_succ _

/-- The outer loop returns, keeps its invariant, leaves every index it was given visited,
and appends clusters with strictly increasing seeds. -/
theorem outerLoop_spec (L : RtreeLib) (tree : L.Rtree)
    (hrq : ∀ i, i < points.length → ∃ l, regionQuery L points tree i eps = some l ∧
      l.Perm (neighbourhood points eps i)) :
    ∀ (is : List Nat) (V : List Bool) (clusters : List (List Nat)) (seeds : List Nat),
      OutInv points eps minPts V clusters → is.Pairwise (fun a b => a < b) →
      (∀ i ∈ is, i < points.length) → clusters.map List.head? = seeds.map some →
      seeds.Pairwise (fun a b => a < b) → (∀ s ∈ seeds, ∀ i ∈ is, s < i) →
      ∃ (out : List (List Nat)) (V' : List Bool) (seeds' : List Nat),
        outerLoop L points tree eps minPts is V clusters = some out ∧
        OutInv points eps minPts V' out ∧ (∀ p, Vis V p ∨ p ∈ is → Vis V' p) ∧
        out.map List.head? = seeds'.map some ∧ seeds'.Pairwise (fun a b => a < b) := by
  intro is
  induction is with
  | nil =>
    intro V clusters seeds hinv _ _ hseeds hsorted _
    refine ⟨clusters, V, seeds, rfl, hinv, ?_, hseeds, hsorted⟩
    intro p hp
    rcases hp with hp | hp
    · exact hp
    · exact absurd hp (List.not_mem_nil _)
  | cons i is ih =>
    intro V clusters seeds hinv his hlt hseeds hsorted hbelow
    have hi : i < points.length := hlt i (List.mem_cons_self _ _)
    have hiV : i < V.length := by rw [hinv.len]; exact hi
    have his' : is.Pairwise (fun a b => a < b) := (List.pairwise_cons.1 his).2
    have hlt' : ∀ k ∈ is, k < points.length := fun k hk => hlt k (List.mem_cons_of_mem _ hk)
    have hbelow' : ∀ s ∈ seeds, ∀ k ∈ is, s < k :=
      fun s hs k hk => hbelow s hs k (List.mem_cons_of_mem _ hk)
    cases hv : V[i] with
    | true =>
      have hv' : V[i]? = some true := by rw [List.getElem?_eq_getElem hiV, hv]
      rw [outerLoop_visited L tree i is V clusters hv']
      obtain ⟨out, V', seeds', h1, h2, h3, h4, h5⟩ :=
        ih V clusters seeds hinv his' hlt' hseeds hsorted hbelow'
      refine ⟨out, V', seeds', h1, h2, ?_, h4, h5⟩
      intro p hp
      rcases hp with hp | hp
      · exact h3 p (Or.inl hp)
      · rcases List.mem_cons.1 hp with hp | hp
        · exact h3 p (Or.inl (hp ▸ hv'))
        · exact h3 p (Or.inr hp)
    | false =>
      have hv' : V[i]? = some false := by rw [List.getElem?_eq_getElem hiV, hv]
      obtain ⟨l, hl, hperm⟩ := hrq i hi
      have hvis : ∀ V' : List Bool, (∀ p, Vis (V.set i true) p ∨ p ∈ is → Vis V' p) →
          ∀ p, Vis V p ∨ p ∈ i :: is → Vis V' p := by
        intro V' h3 p hp
        rcases hp with hp | hp
        · exact h3 p (Or.inl (vis_set_of_vis hp))
        · rcases List.mem_cons.1 hp with hp | hp
          · exact h3 p (Or.inl (vis_set.2 (Or.inl ⟨hp, hiV⟩)))
          · exact h3 p (Or.inr hp)
      by_cases hc : (l.length : Int) < minPts
      · rw [outerLoop_noise L tree i is l V clusters hv' hl hc]
        have hnc : ¬ isCore points eps minPts i = true :=
          fun hcore => absurd ((isCore_iff_of_perm hi hperm).1 hcore) (by omega)
        obtain ⟨out, V', seeds', h1, h2, h3, h4, h5⟩ :=
          ih (V.set i true) clusters seeds (hinv.mark_noncore hnc) his' hlt' hseeds hsorted
            hbelow'
        exact ⟨out, V', seeds', h1, h2, hvis V' h3, h4, h5⟩
      · have hcore : isCore points eps minPts i = true :=
          (isCore_iff_of_perm hi hperm).2 (by omega)
        obtain ⟨C, V1, hE, hEinv⟩ := expandCluster_seed L tree hrq hinv.len hv' hcore hperm
        rw [outerLoop_seed L tree i is l C V V1 clusters hv' hl hc hE]
        have hseeds1 : (clusters ++ [C]).map List.head? = (seeds ++ [i]).map some := by
          rw [List.map_append, List.map_append, hseeds]
          simp [hEinv.head]
        have hsorted1 : (seeds ++ [i]).Pairwise (fun a b => a < b) := by
          rw [List.pairwise_append]
          refine ⟨hsorted, List.pairwise_singleton _ _, ?_⟩
          intro a ha b hb
          rw [List.mem_singleton] at hb
          subst hb
          exact hbelow a ha b (List.mem_cons_self _ _)
        have hbelow1 : ∀ s ∈ seeds ++ [i], ∀ k ∈ is, s < k := by
          intro s hs k hk
          rcases List.mem_append.1 hs with hs | hs
          · exact hbelow' s hs k hk
          · rw [List.mem_singleton] at hs
            subst hs
            exact (List.pairwise_cons.1 his).1 k hk
        obtain ⟨out, V', seeds', h1, h2, h3, h4, h5⟩ :=
          ih V1 (clusters ++ [C]) (seeds ++ [i]) (hinv.add_cluster hEinv hv' hcore) his' hlt'
            hseeds1 hsorted1 hbelow1
        refine ⟨out, V', seeds', h1, h2, ?_, h4, h5⟩
        apply hvis V'
        intro p hp
        rcases hp with hp | hp
        · rcases vis_set.1 hp with ⟨rfl, _⟩ | hp'
          · exact h3 p (Or.inl (hEinv.cvis p (List.mem_of_mem_head? hEinv.head)))
          · exact h3 p (Or.inl (hEinv.mono p hp'))
        · exact h3 p (Or.inr hp)

/-- Under the index contract the clustering phase returns, and its clusters satisfy
`ClustersOk` and contain every core point together with its whole neighbourhood. -/
theorem dbscanClusters_spec (L : RtreeLib) (hL : L.Contract) (points : List Point) (eps : ℚ)
    (minPts : Int) :
    ∃ clusters, dbscanClusters L points eps minPts = some clusters ∧
      ClustersOk points eps minPts clusters ∧
      ∀ p, isCore points eps minPts p = true →
        ∃ c ∈ clusters, p ∈ c ∧ ∀ j, withinEps points eps p j = true → j ∈ c := by
  have hinit : OutInv points eps minPts (List.replicate points.length false) [] :=
    { len := List.length_replicate _ _
      cvis := fun c hc => absurd hc (List.not_mem_nil _)
      cover := by
        intro p hp
        unfold Vis at hp
        rw [List.getElem?_replicate] at hp
        split at hp <;> simp at hp
      char := fun c hc => absurd hc (List.not_mem_nil _)
      fresh := List.Pairwise.nil }
  obtain ⟨out, V', seeds', h1, h2, h3, h4, h5⟩ :=
    outerLoop_spec L _ (fun i hi => regionQuery_spec L hL points eps i hi)
      (List.range points.length) _ [] [] hinit (List.pairwise_lt_range _)
      (fun i hi => List.mem_range.1 hi) rfl List.Pairwise.nil
      (fun s hs => absurd hs (List.not_mem_nil _))
  refine ⟨out, h1, ⟨h2.char, h2.fresh, seeds', h4, h5⟩, ?_⟩
  intro p hp
  exact h2.cover p (h3 p (Or.inr (List.mem_range.2 (isCore_lt hp)))) hp

end Outer

/-! ## Consequences for the clusters -/

section Consequences

variable {points : List Point} {eps : ℚ} {minPts : Int}

theorem scanLib_insert (items acc : List rtreeItem) :
    items.foldl scanLib.Insert acc = acc ++ items := by
  induction items generalizing acc with
  | nil => simp
  | cons a items ih =>
    rw [List.foldl_cons, ih]
    show (acc ++ [a]) ++ items = acc ++ a :: items
    simp

/-- The reference index satisfies the contract of the Spatial Index. -/
theorem scanLib_contract : scanLib.Contract := by
  intro items rect
  rw [show scanLib.NewTree = ([] : List rtreeItem) from rfl, scanLib_insert, List.nil_append]
  exact List.Perm.refl _

theorem mem_of_coreReach {c : List Nat} {s x : Nat}
    (hchar : ∀ m, m ∈ c ↔ (m = s ∨ ∃ q, CoreReach points eps minPts s q ∧
      withinEps points eps q m = true))
    (hr : CoreReach points eps minPts s x) : x ∈ c := by
  cases hr with
  | refl => exact (hchar s).2 (Or.inl rfl)
  | tail hr' hstep => exact (hchar x).2 (Or.inr ⟨_, hr', hstep.2.2⟩)

theorem coreReach_of_core_mem {c : List Nat} {s x : Nat}
    (hs : isCore points eps minPts s = true)
    (hchar : ∀ m, m ∈ c ↔ (m = s ∨ ∃ q, CoreReach points eps minPts s q ∧
      withinEps points eps q m = true))
    (hx : x ∈ c) (hcx : isCore points eps minPts x = true) :
    CoreReach points eps minPts s x := by
  rcases (hchar x).1 hx with rfl | ⟨q, hr, hw⟩
  · exact Relation.ReflTransGen.refl
  · exact Relation.ReflTransGen.tail hr ⟨coreReach_core hs hr, hcx, hw⟩

/-- A core point is a member of at most one cluster. -/
theorem ClustersOk.core_unique {clusters : List (List Nat)}
    (h : ClustersOk points eps minPts clusters) {a b : Nat} {c c' : List Nat}
    (ha : clusters[a]? = some c) (hb : clusters[b]? = some c') {p : Nat}
    (hp : isCore points eps minPts p = true) (hpc : p ∈ c) (hpc' : p ∈ c') : a = b := by
  have key : ∀ (a b : Nat) (c c' : List Nat), clusters[a]? = some c → clusters[b]? = some c' →
      p ∈ c → p ∈ c' → ¬ a < b := by
    intro a b c c' ha hb hpc hpc' hab
    obtain ⟨hal, hac⟩ := List.getElem?_eq_some.1 ha
    obtain ⟨hbl, hbc⟩ := List.getElem?_eq_some.1 hb
    have hfresh := List.pairwise_iff_getElem.1 h.fresh a b hal hbl hab
    rw [hac, hbc] at hfresh
    obtain ⟨s, _, hs, _, hchar⟩ := h.char c (List.getElem?_mem ha)
    obtain ⟨s', hhead', hs', _, hchar'⟩ := h.char c' (List.getElem?_mem hb)
    have h1 := coreReach_of_core_mem hs hchar hpc hp
    have h2 := coreReach_of_core_mem hs' hchar' hpc' hp
    exact hfresh s' hhead' (mem_of_coreReach hchar (h1.trans (coreReach_symm h2)))
  rcases Nat.lt_trichotomy a b with hab | hab | hab
  · exact absurd hab (key a b c c' ha hb hpc hpc')
  · exact hab
  · exact absurd hab (key b a c' c hb ha hpc' hpc)

/-- Every point within `eps` of a core member of a cluster is a member of that cluster. -/
theorem ClustersOk.near_core_mem {clusters : List (List Nat)}
    (h : ClustersOk points eps minPts clusters) {c : List Nat} (hc : c ∈ clusters) {q m : Nat}
    (hq : q ∈ c) (hcq : isCore points eps minPts q = true)
    (hw : withinEps points eps q m = true) : m ∈ c := by
  obtain ⟨s, _, hs, _, hchar⟩ := h.char c hc
  exact (hchar m).2 (Or.inr ⟨q, coreReach_of_core_mem hs hchar hq hcq, hw⟩)

/-- Every member of a cluster is a core point or lies within `eps` of a core member. -/
theorem ClustersOk.mem_core_or_border {clusters : List (List Nat)}
    (h : ClustersOk points eps minPts clusters) {c : List Nat} (hc : c ∈ clusters) {m : Nat}
    (hm : m ∈ c) : isCore points eps minPts m = true ∨
      ∃ q, q ∈ c ∧ isCore points eps minPts q = true ∧ withinEps points eps q m = true := by
  obtain ⟨s, _, hs, _, hchar⟩ := h.char c hc
  rcases (hchar m).1 hm with rfl | ⟨q, hr, hw⟩
  · exact Or.inl hs
  · exact Or.inr ⟨q, mem_of_coreReach hchar hr, coreReach_core hs hr, hw⟩

end Consequences

/-! ## C1: exclusive membership -/

/-- C1 (counterexample): for the seven points `bridgePoints` with `eps = 1` and
`minPts = 4`, the non-core point `m` (index 3) lies within `eps` of the core point `a`
(index 0) and of the core point `c` (index 4); it is a member of both clusters, and its
identifier is listed in both output records. -/
theorem exclusive_membership_counterexample :
    dbscanClusters scanLib bridgePoints 1 4 = some [[0, 1, 2, 3], [4, 3, 5, 6]] ∧
    (dbscan scanLib bridgePoints 1 4).map (fun out => out.map (fun o => o.IDs))
      = some [["a", "a1", "a2", "m"], ["c", "m", "c1", "c2"]] ∧
    isCore bridgePoints 1 4 3 = false ∧
    isCore bridgePoints 1 4 0 = true ∧ withinEps bridgePoints 1 0 3 = true ∧
    isCore bridgePoints 1 4 4 = true ∧ withinEps bridgePoints 1 4 3 = true := by
  decide!

/-- C1 (amended): under the index contract `dbscan`'s clustering phase returns clusters in
which every core point index appears in at most one cluster, while every point within
`eps` of a core member of a cluster is a member of that cluster (so a non-core point near
core points of two clusters is in both). -/
theorem core_membership_exclusive (L : RtreeLib) (hL : L.Contract) (points : List Point)
    (eps : ℚ) (minPts : Int) :
    ∃ clusters, dbscanClusters L points eps minPts = some clusters ∧
      (∀ (a b : Nat) (c c' : List Nat) (p : Nat), clusters[a]? = some c →
        clusters[b]? = some c' → isCore points eps minPts p = true → p ∈ c → p ∈ c' →
        a = b) ∧
      (∀ c ∈ clusters, ∀ q m : Nat, q ∈ c → isCore points eps minPts q = true →
        withinEps points eps q m = true → m ∈ c) := by
  obtain ⟨clusters, hrun, hok, _⟩ := dbscanClusters_spec L hL points eps minPts
  exact ⟨clusters, hrun, fun a b c c' p ha hb hp hpc hpc' => hok.core_unique ha hb hp hpc hpc',
    fun c hc q m hq hcq hw => hok.near_core_mem hc hq hcq hw⟩

/-- C1 (witness): the amended statement at the bridge input. -/
theorem core_membership_exclusive_witness :
    scanLib.Contract ∧
    ∃ clusters, dbscanClusters scanLib bridgePoints 1 4 = some clusters ∧
      (∀ (a b : Nat) (c c' : List Nat) (p : Nat), clusters[a]? = some c →
        clusters[b]? = some c' → isCore bridgePoints 1 4 p = true → p ∈ c → p ∈ c' →
        a = b) ∧
      (∀ c ∈ clusters, ∀ q m : Nat, q ∈ c → isCore bridgePoints 1 4 q = true →
        withinEps bridgePoints 1 q m = true → m ∈ c) :=
  ⟨scanLib_contract, core_membership_exclusive scanLib scanLib_contract bridgePoints 1 4⟩

/-! ## C3: cluster separation -/

/-- C3: under the index contract, no core member of a cluster lies within `eps` of a core
member of a different cluster. -/
theorem cluster_separation (L : RtreeLib) (hL : L.Contract) (points : List Point) (eps : ℚ)
    (minPts : Int) :
    ∃ clusters, dbscanClusters L points eps minPts = some clusters ∧
      ∀ (a b : Nat) (A B : List Nat), clusters[a]? = some A → clusters[b]? = some B → a ≠ b →
        ∀ p ∈ A, ∀ q ∈ B, isCore points eps minPts p = true →
          isCore points eps minPts q = true → withinEps points eps p q = false := by
  obtain ⟨clusters, hrun, hok, _⟩ := dbscanClusters_spec L hL points eps minPts
  refine ⟨clusters, hrun, ?_⟩
  intro a b A B ha hb hab p hp q hq hcp hcq
  by_contra hw
  rw [Bool.not_eq_false] at hw
  have hqA : q ∈ A := hok.near_core_mem (List.getElem?_mem ha) hp hcp hw
  exact hab (hok.core_unique ha hb hcq hqA hq)

/-- C3 (witness): the two clusters of the bridge input. -/
theorem cluster_separation_witness :
    scanLib.Contract ∧
    ∃ clusters, dbscanClusters scanLib bridgePoints 1 4 = some clusters ∧
      ∀ (a b : Nat) (A B : List Nat), clusters[a]? = some A → clusters[b]? = some B → a ≠ b →
        ∀ p ∈ A, ∀ q ∈ B, isCore bridgePoints 1 4 p = true →
          isCore bridgePoints 1 4 q = true → withinEps bridgePoints 1 p q = false :=
  ⟨scanLib_contract, cluster_separation scanLib scanLib_contract bridgePoints 1 4⟩

/-! ## C7: minimum cluster size -/

/-- C7: under the index contract, every cluster has no repeated member and at least
`minPts` members, and it is not empty, so the divisor of the centroid is not zero. -/
theorem cluster_size_ge_minPts (L : RtreeLib) (hL : L.Contract) (points : List Point)
    (eps : ℚ) (minPts : Int) :
    ∃ clusters, dbscanClusters L points eps minPts = some clusters ∧
      ∀ c ∈ clusters, c.Nodup ∧ minPts ≤ (c.length : Int) ∧ 1 ≤ c.length ∧
        (c.length : ℚ) ≠ 0 := by
  obtain ⟨clusters, hrun, hok, _⟩ := dbscanClusters_spec L hL points eps minPts
  refine ⟨clusters, hrun, ?_⟩
  intro c hc
  obtain ⟨s, hhead, hs, hnodup, hchar⟩ := hok.char c hc
  have hpos : 1 ≤ c.length := by
    cases c with
    | nil => simp at hhead
    | cons a c => simp
  refine ⟨hnodup, ?_, hpos, ?_⟩
  · have hsub : neighbourhood points eps s ⊆ c := by
      intro m hm
      exact (hchar m).2 (Or.inr ⟨s, Relation.ReflTransGen.refl, mem_neighbourhood.1 hm⟩)
    have hle : (neighbourhood points eps s).length ≤ c.length :=
      ((neighbourhood_nodup points eps s).subperm hsub).length_le
    simp only [isCore, decide_eq_true_eq] at hs
    omega
  · exact_mod_cast Nat.pos_iff_ne_zero.1 hpos

/-- C7 (witness): the chain of scenario S4. -/
theorem cluster_size_ge_minPts_witness :
    scanLib.Contract ∧
    ∃ clusters, dbscanClusters scanLib chainPoints (6 / 1000) 2 = some clusters ∧
      ∀ c ∈ clusters, c.Nodup ∧ (2 : Int) ≤ (c.length : Int) ∧ 1 ≤ c.length ∧
        (c.length : ℚ) ≠ 0 :=
  ⟨scanLib_contract, cluster_size_ge_minPts scanLib scanLib_contract chainPoints (6 / 1000) 2⟩

/-! ## The result assembly -/

section Assembly

variable {points : List Point} {eps : ℚ} {minPts : Int}

theorem ClustersOk.mem_lt {clusters : List (List Nat)}
    (h : ClustersOk points eps minPts clusters) {c : List Nat} (hc : c ∈ clusters) {m : Nat}
    (hm : m ∈ c) : m < points.length := by
  rcases h.mem_core_or_border hc hm with h1 | ⟨q, _, _, hw⟩
  · exact isCore_lt h1
  · exact (withinEps_lt hw).2

theorem clusterMembers_cons {idx : Nat} {rest : List Nat} (h : idx < points.length) :
    clusterMembers points (idx :: rest) = points[idx] :: clusterMembers points rest := by
  unfold clusterMembers
  rw [List.filterMap_cons, List.getElem?_eq_getElem h]

theorem clusterMembers_map_some (c : List Nat) (hc : ∀ i ∈ c, i < points.length) :
    (clusterMembers points c).map some = c.map (fun idx => points[idx]?) := by
  induction c with
  | nil => rfl
  | cons idx rest ih =>
    have hidx := hc idx (List.mem_cons_self _ _)
    rw [clusterMembers_cons hidx, List.map_cons, List.map_cons,
      ih (fun i hi => hc i (List.mem_cons_of_mem _ hi)), List.getElem?_eq_getElem hidx]

theorem sumMembers_spec (c : List Nat) (hc : ∀ i ∈ c, i < points.length) (sumLat sumLon : ℚ)
    (ids : List String) :
    sumMembers points c sumLat sumLon ids
      = some (sumLat + ((clusterMembers points c).map (fun p => p.Lat)).sum,
          sumLon + ((clusterMembers points c).map (fun p => p.Lon)).sum,
          ids ++ (clusterMembers points c).map (fun p => p.ID)) := by
  induction c generalizing sumLat sumLon ids with
  | nil => simp [sumMembers, clusterMembers]
  | cons idx rest ih =>
    have hidx := hc idx (List.mem_cons_self _ _)
    rw [sumMembers, List.getElem?_eq_getElem hidx]
    simp only [Option.some_bind, Option.bind_eq_bind]
    rw [ih (fun i hi => hc i (List.mem_cons_of_mem _ hi)), clusterMembers_cons hidx]
    simp only [List.map_cons, List.sum_cons, List.append_assoc, List.singleton_append,
      add_assoc]

theorem clusterMembers_length (c : List Nat) (hc : ∀ i ∈ c, i < points.length) :
    (clusterMembers points c).length = c.length := by
  have h := congrArg List.length (clusterMembers_map_some c hc)
  simpa using h

theorem assemble_spec (clusters : List (List Nat))
    (hc : ∀ c ∈ clusters, ∀ i ∈ c, i < points.length) :
    assemble points clusters
      = some (clusters.map (fun c => meanRecord (clusterMembers points c))) := by
  induction clusters with
  | nil => rfl
  | cons c rest ih =>
    have hc0 := hc c (List.mem_cons_self _ _)
    rw [assemble, sumMembers_spec c hc0]
    simp only [Option.some_bind, Option.bind_eq_bind]
    rw [ih (fun c' hc' => hc c' (List.mem_cons_of_mem _ hc'))]
    simp only [Option.some_bind, Option.pure_def, List.map_cons, meanRecord, zero_add,
      List.nil_append, clusterMembers_length c hc0]

theorem dbscan_eq (L : RtreeLib) {clusters : List (List Nat)}
    (hrun : dbscanClusters L points eps minPts = some clusters)
    (hok : ClustersOk points eps minPts clusters) :
    dbscan L points eps minPts
      = some (clusters.map (fun c => meanRecord (clusterMembers points c))) := by
  unfold dbscan
  rw [hrun]
  simp only [Option.some_bind, Option.bind_eq_bind]
  exact assemble_spec clusters (fun c hc i hi => hok.mem_lt hc hi)

end Assembly

/-! ## C6, C8, C9: assembly, seeds and emission order -/

section Seeds

variable {points : List Point} {eps : ℚ} {minPts : Int}

/-- The loop of `expandCluster` only appends to the cluster it is given. -/
theorem expandLoop_prefix (L : RtreeLib) (tree : L.Rtree) :
    ∀ (fuel j : Nat) (neighbors C : List Nat) (V : List Bool) (C' : List Nat) (V' : List Bool),
      expandLoop L points tree eps minPts fuel j neighbors C V = some (C', V') →
      ∃ ext, C' = C ++ ext := by
  intro fuel
  induction fuel with
  | zero =>
    intro j neighbors C V C' V' h
    rw [expandLoop] at h
    split at h
    · exact absurd h (by simp)
    · simp only [Option.some.injEq, Prod.mk.injEq] at h
      exact ⟨[], by rw [← h.1, List.append_nil]⟩
  | succ fuel ih =>
    intro j neighbors C V C' V' h
    rw [expandLoop] at h
    split at h
    · simp only [Option.some.injEq, Prod.mk.injEq] at h
      exact ⟨[], by rw [← h.1, List.append_nil]⟩
    · rename_i idx _
      have fin : ∀ (nb1 : List Nat) (V1 : List Bool),
          expandLoop L points tree eps minPts fuel (j + 1) nb1
            (if !contains C idx then C ++ [idx] else C) V1 = some (C', V') →
          ∃ ext, C' = C ++ ext := by
        intro nb1 V1 hrec
        obtain ⟨ext, hext⟩ := ih _ _ _ _ _ _ hrec
        by_cases hin : contains C idx = true
        · simp only [hin, Bool.not_true, Bool.false_eq_true, if_false] at hext
          exact ⟨ext, hext⟩
        · simp only [Bool.not_eq_true] at hin
          simp only [hin, Bool.not_false, if_true] at hext
          exact ⟨[idx] ++ ext, by rw [hext, List.append_assoc]⟩
      cases hv : V[idx]? with
      | none =>
        rw [hv] at h
        exact absurd h (by simp)
      | some v =>
        rw [hv] at h
        cases v with
        | true =>
          simp only [Option.some_bind, Option.bind_eq_bind, Bool.not_true, Bool.false_eq_true,
            if_false, Option.pure_def] at h
          exact fin _ _ h
        | false =>
          cases hl : regionQuery L points tree idx eps with
          | none =>
            rw [hl] at h
            exact absurd h (by simp)
          | some l =>
            rw [hl] at h
            by_cases hc : minPts ≤ (l.length : Int)
            · simp only [Option.some_bind, Option.bind_eq_bind, Bool.not_false, if_true,
                Option.pure_def, ge_iff_le, hc] at h
              exact fin _ _ h
            · simp only [Option.some_bind, Option.bind_eq_bind, Bool.not_false, if_true,
                Option.pure_def, ge_iff_le, hc, if_false] at h
              exact fin _ _ h

theorem expandCluster_head (L : RtreeLib) (tree : L.Rtree) (i : Nat) (nbrs : List Nat)
    (V : List Bool) (C : List Nat) (V' : List Bool)
    (h : expandCluster L points [i] nbrs V tree eps minPts = some (C, V')) :
    C.head? = some i := by
  obtain ⟨ext, hext⟩ := expandLoop_prefix L tree _ _ _ _ _ _ _ h
  rw [hext]
  rfl

/-- C6: under the index contract `dbscan` returns one record per cluster of the clustering
phase, in the same order; the record of a cluster holds the sum of the members' latitudes
divided by the number of members, the same for the longitudes, and the members' identifiers
in member order (every member index is valid, so no member is dropped). -/
theorem centroid_and_ids (L : RtreeLib) (hL : L.Contract) (points : List Point) (eps : ℚ)
    (minPts : Int) :
    ∃ clusters, dbscanClusters L points eps minPts = some clusters ∧
      dbscan L points eps minPts
        = some (clusters.map (fun c => meanRecord (clusterMembers points c))) ∧
      ∀ c ∈ clusters, (clusterMembers points c).map some = c.map (fun idx => points[idx]?) := by
  obtain ⟨clusters, hrun, hok, _⟩ := dbscanClusters_spec L hL points eps minPts
  exact ⟨clusters, hrun, dbscan_eq L hrun hok,
    fun c hc => clusterMembers_map_some c (fun i hi => hok.mem_lt hc hi)⟩

/-- C6 (witness): scenario S4; the centroid of the five chain points is (0.01, 0). -/
theorem centroid_and_ids_witness :
    dbscan scanLib chainPoints (6 / 1000) 2
      = some [{ CentroidLat := 1 / 100, CentroidLon := 0,
                IDs := ["p0", "p1", "p2", "p3", "p4"] }] ∧
    scanLib.Contract ∧
    ∃ clusters, dbscanClusters scanLib chainPoints (6 / 1000) 2 = some clusters ∧
      dbscan scanLib chainPoints (6 / 1000) 2
        = some (clusters.map (fun c => meanRecord (clusterMembers chainPoints c))) ∧
      ∀ c ∈ clusters,
        (clusterMembers chainPoints c).map some = c.map (fun idx => chainPoints[idx]?) :=
  ⟨by decide!, scanLib_contract,
    centroid_and_ids scanLib scanLib_contract chainPoints (6 / 1000) 2⟩

/-- C8: `expandCluster` called on the one-member cluster `[i]` returns a cluster whose first
member is `i`; and under the index contract every cluster starts with a valid index `s`
whose `regionQuery` result has at least `minPts` entries (a core point), and every output
record starts with the identifier of such a point. -/
theorem seed_first_and_core (L : RtreeLib) (hL : L.Contract) (points : List Point) (eps : ℚ)
    (minPts : Int) :
    (∀ (tree : L.Rtree) (i : Nat) (nbrs : List Nat) (V : List Bool) (C : List Nat)
      (V' : List Bool), expandCluster L points [i] nbrs V tree eps minPts = some (C, V') →
      C.head? = some i) ∧
    ∃ clusters out, dbscanClusters L points eps minPts = some clusters ∧
      dbscan L points eps minPts = some out ∧
      (∀ c ∈ clusters, ∃ s nbrs, c.head? = some s ∧
        regionQuery L points ((indexItems points eps).foldl L.Insert L.NewTree) s eps
          = some nbrs ∧
        minPts ≤ (nbrs.length : Int) ∧ isCore points eps minPts s = true) ∧
      (∀ o ∈ out, ∃ s p, points[s]? = some p ∧ isCore points eps minPts s = true ∧
        o.IDs.head? = some p.ID) := by
  refine ⟨fun tree i nbrs V C V' h => expandCluster_head L tree i nbrs V C V' h, ?_⟩
  obtain ⟨clusters, hrun, hok, _⟩ := dbscanClusters_spec L hL points eps minPts
  refine ⟨clusters, _, hrun, dbscan_eq L hrun hok, ?_, ?_⟩
  · intro c hc
    obtain ⟨s, hhead, hs, _, _⟩ := hok.char c hc
    obtain ⟨l, hl, hperm⟩ := regionQuery_spec L hL points eps s (isCore_lt hs)
    exact ⟨s, l, hhead, hl, (isCore_iff_of_perm (isCore_lt hs) hperm).1 hs, hs⟩
  · intro o ho
    obtain ⟨c, hc, rfl⟩ := List.mem_map.1 ho
    obtain ⟨s, hhead, hs, _, _⟩ := hok.char c hc
    have hslt : s < points.length := isCore_lt hs
    refine ⟨s, points[s], List.getElem?_eq_getElem hslt, hs, ?_⟩
    cases c with
    | nil => simp at hhead
    | cons a rest =>
      simp only [List.head?_cons, Option.some.injEq] at hhead
      subst hhead
      simp only [meanRecord]
      rw [clusterMembers_cons (isCore_lt hs)]
      rfl

/-- C8 (witness): in `borderFirstPoints` the cluster starts with its seed, index 1, not
with the border point at index 0. -/
theorem seed_first_and_core_witness :
    dbscanClusters scanLib borderFirstPoints 1 3 = some [[1, 0, 2, 3]] ∧
    scanLib.Contract ∧
    ((∀ (tree : scanLib.Rtree) (i : Nat) (nbrs : List Nat) (V : List Bool) (C : List Nat)
      (V' : List Bool),
      expandCluster scanLib borderFirstPoints [i] nbrs V tree 1 3 = some (C, V') →
      C.head? = some i) ∧
    ∃ clusters out, dbscanClusters scanLib borderFirstPoints 1 3 = some clusters ∧
      dbscan scanLib borderFirstPoints 1 3 = some out ∧
      (∀ c ∈ clusters, ∃ s nbrs, c.head? = some s ∧
        regionQuery scanLib borderFirstPoints
          ((indexItems borderFirstPoints 1).foldl scanLib.Insert scanLib.NewTree) s 1
          = some nbrs ∧
        (3 : Int) ≤ (nbrs.length : Int) ∧ isCore borderFirstPoints 1 3 s = true) ∧
      (∀ o ∈ out, ∃ s p, borderFirstPoints[s]? = some p ∧
        isCore borderFirstPoints 1 3 s = true ∧ o.IDs.head? = some p.ID)) :=
  ⟨by decide!, scanLib_contract,
    seed_first_and_core scanLib scanLib_contract borderFirstPoints 1 3⟩

/-- C9: under the index contract, every cluster has a first member, these seeds are
strictly increasing along the list of clusters, and `dbscan` returns the records of the
clusters in the same order. -/
theorem seeds_strictly_increasing (L : RtreeLib) (hL : L.Contract) (points : List Point)
    (eps : ℚ) (minPts : Int) :
    ∃ (clusters : List (List Nat)) (seeds : List Nat),
      dbscanClusters L points eps minPts = some clusters ∧
      clusters.map List.head? = seeds.map some ∧ seeds.Pairwise (fun a b => a < b) ∧
      dbscan L points eps minPts
        = some (clusters.map (fun c => meanRecord (clusterMembers points c))) := by
  obtain ⟨clusters, hrun, hok, _⟩ := dbscanClusters_spec L hL points eps minPts
  obtain ⟨seeds, h1, h2⟩ := hok.seeds
  exact ⟨clusters, seeds, hrun, h1, h2, dbscan_eq L hrun hok⟩

/-- C9 (witness): the two clusters of the bridge input are seeded at indices 0 and 4. -/
theorem seeds_strictly_increasing_witness :
    dbscanClusters scanLib bridgePoints 1 4 = some [[0, 1, 2, 3], [4, 3, 5, 6]] ∧
    scanLib.Contract ∧
    ∃ (clusters : List (List Nat)) (seeds : List Nat),
      dbscanClusters scanLib bridgePoints 1 4 = some clusters ∧
      clusters.map List.head? = seeds.map some ∧ seeds.Pairwise (fun a b => a < b) ∧
      dbscan scanLib bridgePoints 1 4
        = some (clusters.map (fun c => meanRecord (clusterMembers bridgePoints c))) :=
  ⟨by decide!, scanLib_contract,
    seeds_strictly_increasing scanLib scanLib_contract bridgePoints 1 4⟩

end Seeds

/-! ## C4: permuting the input -/

section Permutation

variable {points : List Point} {eps : ℚ} {minPts : Int}

theorem withinEps_eq_nearPt {i j : Nat} {p q : Point} (hp : points[i]? = some p)
    (hq : points[j]? = some q) : withinEps points eps i j = nearPt eps p q := by
  unfold withinEps nearPt
  rw [hp, hq]

theorem filter_range_length (l : List Point) (g : Option Point → Bool) :
    ((List.range l.length).filter (fun j => g l[j]?)).length
      = l.countP (fun q => g (some q)) := by
  induction l with
  | nil => rfl
  | cons a l ih =>
    rw [List.length_cons, List.range_succ_eq_map, List.filter_cons, List.countP_cons,
      List.filter_map]
    have hfun : ((fun j => g (a :: l)[j]?) ∘ Nat.succ) = fun j => g l[j]? := by
      funext j
      simp
    rw [hfun]
    by_cases h0 : g (some a) = true
    · simp [h0, ih]
    · simp [h0, ih]

theorem neighbourhood_length {i : Nat} {p : Point} (hp : points[i]? = some p) :
    (neighbourhood points eps i).length = points.countP (nearPt eps p) := by
  unfold neighbourhood
  have h := filter_range_length points (fun o => match o with
    | some q => nearPt eps p q
    | none => false)
  simp only at h
  rw [← h]
  congr 1
  apply List.filter_congr
  intro j _
  unfold withinEps nearPt
  rw [hp]
  cases points[j]? <;> rfl

theorem isCore_iff_corePt {i : Nat} {p : Point} (hp : points[i]? = some p) :
    isCore points eps minPts i = true ↔ corePt points eps minPts p := by
  have hi : i < points.length := (List.getElem?_eq_some.1 hp).1
  simp only [isCore, corePt, decide_eq_true_eq, neighbourhood_length hp, hi, true_and,
    List.getElem?_mem hp]

theorem nearPt_symm (eps : ℚ) (p q : Point) : nearPt eps p q = nearPt eps q p := by
  unfold nearPt
  rw [← hypotLe_symm]
  simp

theorem nearPt_self {eps : ℚ} (h0 : 0 ≤ eps) (p : Point) : nearPt eps p p = true := by
  unfold nearPt
  simpa using hypotLe_zero h0

theorem ptReach_symm {a b : Point} (h : PtReach points eps minPts a b) :
    PtReach points eps minPts b a := by
  induction h with
  | refl => exact Relation.ReflTransGen.refl
  | tail _ hstep ih =>
    exact Relation.ReflTransGen.head
      ⟨hstep.2.1, hstep.1, by rw [nearPt_symm]; exact hstep.2.2⟩ ih

theorem coreReach_to_pt {s q : Nat} {P : Point} (hP : points[s]? = some P)
    (h : CoreReach points eps minPts s q) :
    ∃ Q, points[q]? = some Q ∧ PtReach points eps minPts P Q := by
  induction h with
  | refl => exact ⟨P, hP, Relation.ReflTransGen.refl⟩
  | @tail a b hra hstep ih =>
    obtain ⟨A, hA, hPA⟩ := ih
    have hb : b < points.length := isCore_lt hstep.2.1
    have hB : points[b]? = some points[b] := List.getElem?_eq_getElem hb
    refine ⟨points[b], hB, Relation.ReflTransGen.tail hPA ⟨?_, ?_, ?_⟩⟩
    · exact (isCore_iff_corePt hA).1 hstep.1
    · exact (isCore_iff_corePt hB).1 hstep.2.1
    · rw [← withinEps_eq_nearPt hA hB]
      exact hstep.2.2

theorem ptReach_to_core {s : Nat} {P Q : Point} (hP : points[s]? = some P)
    (h : PtReach points eps minPts P Q) :
    ∃ q, points[q]? = some Q ∧ CoreReach points eps minPts s q := by
  induction h with
  | refl => exact ⟨s, hP, Relation.ReflTransGen.refl⟩
  | @tail A B _ hstep ih =>
    obtain ⟨a, hA, hsa⟩ := ih
    obtain ⟨b, hB⟩ := List.mem_iff_getElem?.1 hstep.2.1.1
    refine ⟨b, hB, Relation.ReflTransGen.tail hsa ⟨?_, ?_, ?_⟩⟩
    · exact (isCore_iff_corePt hA).2 hstep.1
    · exact (isCore_iff_corePt hB).2 hstep.2.1
    · rw [withinEps_eq_nearPt hA hB]
      exact hstep.2.2

theorem idNear_of_reach {P P' : Point} (h : PtReach points eps minPts P P') (x : String) :
    IdNear points eps minPts P x ↔ IdNear points eps minPts P' x := by
  constructor
  · rintro ⟨q, r, hq, hr, hn, hx⟩
    exact ⟨q, r, (ptReach_symm h).trans hq, hr, hn, hx⟩
  · rintro ⟨q, r, hq, hr, hn, hx⟩
    exact ⟨q, r, h.trans hq, hr, hn, hx⟩

/-- The identifiers listed for a cluster are those of the points within `eps` of a core
point chained to the seed. -/
theorem cluster_ids_iff (heps : 0 ≤ eps) {c : List Nat} {s : Nat} {P : Point}
    (hP : points[s]? = some P) (hs : isCore points eps minPts s = true)
    (hchar : ∀ m, m ∈ c ↔ (m = s ∨ ∃ q, CoreReach points eps minPts s q ∧
      withinEps points eps q m = true)) (x : String) :
    x ∈ (meanRecord (clusterMembers points c)).IDs ↔ IdNear points eps minPts P x := by
  simp only [meanRecord, clusterMembers, List.mem_map, List.mem_filterMap]
  constructor
  · rintro ⟨R, ⟨m, hm, hR⟩, hx⟩
    rcases (hchar m).1 hm with rfl | ⟨q, hr, hw⟩
    · rw [hP] at hR
      cases hR
      exact ⟨P, P, Relation.ReflTransGen.refl, List.getElem?_mem hP, nearPt_self heps P, hx⟩
    · obtain ⟨Q, hQ, hPQ⟩ := coreReach_to_pt hP hr
      refine ⟨Q, R, hPQ, List.getElem?_mem hR, ?_, hx⟩
      rw [← withinEps_eq_nearPt hQ hR]
      exact hw
  · rintro ⟨Q, R, hPQ, hR, hn, hx⟩
    obtain ⟨q, hQ, hsq⟩ := ptReach_to_core hP hPQ
    obtain ⟨r, hr⟩ := List.mem_iff_getElem?.1 hR
    refine ⟨R, ⟨r, (hchar r).2 (Or.inr ⟨q, hsq, ?_⟩), hr⟩, hx⟩
    rw [withinEps_eq_nearPt hQ hr]
    exact hn

/-- The sets of identifiers of the output records are the sets `IdNear p` for the core
points `p` of the input. -/
theorem output_id_sets (L : RtreeLib) (hL : L.Contract) (points : List Point) (eps : ℚ)
    (minPts : Int) (heps : 0 ≤ eps) :
    ∃ out, dbscan L points eps minPts = some out ∧
      ∀ S : Finset String, S ∈ (out.map (fun o => o.IDs.toFinset)).toFinset ↔
        ∃ P, corePt points eps minPts P ∧ ∀ x, x ∈ S ↔ IdNear points eps minPts P x := by
  obtain ⟨clusters, hrun, hok, hcover⟩ := dbscanClusters_spec L hL points eps minPts
  refine ⟨_, dbscan_eq L hrun hok, ?_⟩
  intro S
  simp only [List.mem_toFinset, List.mem_map, exists_exists_and_eq_and]
  constructor
  · rintro ⟨c, hc, rfl⟩
    obtain ⟨s, _, hs, _, hchar⟩ := hok.char c hc
    have hslt : s < points.length := isCore_lt hs
    have hP : points[s]? = some points[s] := List.getElem?_eq_getElem hslt
    refine ⟨points[s], (isCore_iff_corePt hP).1 hs, fun x => ?_⟩
    rw [List.mem_toFinset]
    exact cluster_ids_iff heps hP hs hchar x
  · rintro ⟨P, hcore, hS⟩
    obtain ⟨p, hp⟩ := List.mem_iff_getElem?.1 hcore.1
    have hpc : isCore points eps minPts p = true := (isCore_iff_corePt hp).2 hcore
    obtain ⟨c, hc, hpmem, _⟩ := hcover p hpc
    obtain ⟨s, _, hs, _, hchar⟩ := hok.char c hc
    have hslt : s < points.length := isCore_lt hs
    have hP0 : points[s]? = some points[s] := List.getElem?_eq_getElem hslt
    obtain ⟨P', hP', hreach⟩ := coreReach_to_pt hP0 (coreReach_of_core_mem hs hchar hpmem hpc)
    rw [hp] at hP'
    cases hP'
    refine ⟨c, hc, ?_⟩
    ext x
    rw [List.mem_toFinset, hS x, cluster_ids_iff heps hP0 hs hchar x]
    exact idNear_of_reach hreach x

theorem corePt_perm {points points' : List Point} (h : points.Perm points') (eps : ℚ)
    (minPts : Int) (p : Point) : corePt points eps minPts p → corePt points' eps minPts p := by
  rintro ⟨h1, h2⟩
  exact ⟨h.mem_iff.1 h1, by rw [← h.countP_eq]; exact h2⟩

theorem ptReach_perm {points points' : List Point} (h : points.Perm points') (eps : ℚ)
    (minPts : Int) (a b : Point) :
    PtReach points eps minPts a b → PtReach points' eps minPts a b := by
  apply Relation.ReflTransGen.mono
  rintro x y ⟨h1, h2, h3⟩
  exact ⟨corePt_perm h eps minPts x h1, corePt_perm h eps minPts y h2, h3⟩

theorem idNear_perm {points points' : List Point} (h : points.Perm points') (eps : ℚ)
    (minPts : Int) (p : Point) (x : String) :
    IdNear points eps minPts p x → IdNear points' eps minPts p x := by
  rintro ⟨q, r, hq, hr, hn, hx⟩
  exact ⟨q, r, ptReach_perm h eps minPts p q hq, h.mem_iff.1 hr, hn, hx⟩

/-- C4: for an input and any rearrangement of it, run with indexes that meet the index
contract and with `eps ≥ 0`, `dbscan` returns in both cases, and the set of output clusters,
each taken as the set of its identifiers, is the same. -/
theorem permutation_insensitive (L L' : RtreeLib) (hL : L.Contract) (hL' : L'.Contract)
    (points points' : List Point) (hperm : points.Perm points') (eps : ℚ) (minPts : Int)
    (heps : 0 ≤ eps) :
    ∃ out out', dbscan L points eps minPts = some out ∧
      dbscan L' points' eps minPts = some out' ∧
      (out.map (fun o => o.IDs.toFinset)).toFinset
        = (out'.map (fun o => o.IDs.toFinset)).toFinset := by
  obtain ⟨out, hout, hS⟩ := output_id_sets L hL points eps minPts heps
  obtain ⟨out', hout', hS'⟩ := output_id_sets L' hL' points' eps minPts heps
  refine ⟨out, out', hout, hout', ?_⟩
  ext S
  rw [hS S, hS' S]
  constructor
  · rintro ⟨P, hP, hx⟩
    exact ⟨P, corePt_perm hperm eps minPts P hP, fun x => (hx x).trans
      ⟨idNear_perm hperm eps minPts P x, idNear_perm hperm.symm eps minPts P x⟩⟩
  · rintro ⟨P, hP, hx⟩
    exact ⟨P, corePt_perm hperm.symm eps minPts P hP, fun x => (hx x).trans
      ⟨idNear_perm hperm.symm eps minPts P x, idNear_perm hperm eps minPts P x⟩⟩

/-- C4 (witness): the bridge input and its reversal.  The clusters come out in the other
order and with their members in another order, with the same two sets of identifiers. -/
theorem permutation_insensitive_witness :
    (dbscan scanLib bridgePoints 1 4).map (fun out => out.map (fun o => o.IDs))
      = some [["a", "a1", "a2", "m"], ["c", "m", "c1", "c2"]] ∧
    (dbscan scanLib bridgePoints.reverse 1 4).map (fun out => out.map (fun o => o.IDs))
      = some [["c", "c2", "c1", "m"], ["a", "m", "a2", "a1"]] ∧
    scanLib.Contract ∧ bridgePoints.Perm bridgePoints.reverse ∧ (0 : ℚ) ≤ 1 ∧
    ∃ out out', dbscan scanLib bridgePoints 1 4 = some out ∧
      dbscan scanLib bridgePoints.reverse 1 4 = some out' ∧
      (out.map (fun o => o.IDs.toFinset)).toFinset
        = (out'.map (fun o => o.IDs.toFinset)).toFinset :=
  ⟨by decide!, by decide!, scanLib_contract, (List.reverse_perm bridgePoints).symm,
    zero_le_one,
    permutation_insensitive scanLib scanLib scanLib_contract scanLib_contract bridgePoints
      bridgePoints.reverse (List.reverse_perm bridgePoints).symm 1 4 zero_le_one⟩

end Permutation

/-! ## C12: the neighbourhood oracle -/

section Oracle

variable {points : List Point} {eps : ℚ} {minPts : Int}

theorem withinEps_iff_sq {i j : Nat} (heps : 0 ≤ eps) :
    withinEps points eps i j = true ↔ ∃ p q, points[i]? = some p ∧ points[j]? = some q ∧
      (p.Lat - q.Lat) ^ 2 + (p.Lon - q.Lon) ^ 2 ≤ eps ^ 2 := by
  unfold withinEps
  constructor
  · intro h
    split at h
    · rename_i p q hp hq
      simp only [hypotLe, decide_eq_true_eq] at h
      exact ⟨p, q, hp, hq, by nlinarith [h.2]⟩
    · exact absurd h (by simp)
  · rintro ⟨p, q, hp, hq, h⟩
    rw [hp, hq]
    simp only [hypotLe, decide_eq_true_eq]
    exact ⟨heps, by nlinarith [h]⟩

/-- C12: under the index contract, for a valid index `i` and `eps ≥ 0`, `regionQuery`
returns a rearrangement of the brute-force distance filter over all points: exactly the
indices `j` with `dlat² + dlon² ≤ eps²`, each once, and `i` itself is among them. -/
theorem regionQuery_exact (L : RtreeLib) (hL : L.Contract) (points : List Point) (eps : ℚ)
    (i : Nat) (hi : i < points.length) (heps : 0 ≤ eps) :
    ∃ l, regionQuery L points ((indexItems points eps).foldl L.Insert L.NewTree) i eps = some l ∧
      l.Perm (neighbourhood points eps i) ∧ l.Nodup ∧ i ∈ l ∧
      ∀ j, j ∈ l ↔ ∃ p q, points[i]? = some p ∧ points[j]? = some q ∧
        (p.Lat - q.Lat) ^ 2 + (p.Lon - q.Lon) ^ 2 ≤ eps ^ 2 := by
  obtain ⟨l, hl, hperm⟩ := regionQuery_spec L hL points eps i hi
  refine ⟨l, hl, hperm, hperm.nodup_iff.2 (neighbourhood_nodup points eps i), ?_, ?_⟩
  · exact hperm.mem_iff.2 (mem_neighbourhood.2 (withinEps_self heps hi))
  · intro j
    rw [hperm.mem_iff, mem_neighbourhood]
    exact withinEps_iff_sq heps

/-- C12 (witness): with the reference index the query of point 3 of the bridge input
returns the brute-force filter itself, `[0, 3, 4]`. -/
theorem regionQuery_exact_witness :
    regionQuery scanLib bridgePoints
        ((indexItems bridgePoints 1).foldl scanLib.Insert scanLib.NewTree) 3 1
      = some [0, 3, 4] ∧
    neighbourhood bridgePoints 1 3 = [0, 3, 4] ∧
    scanLib.Contract ∧ 3 < bridgePoints.length ∧ (0 : ℚ) ≤ 1 ∧
    ∃ l, regionQuery scanLib bridgePoints
        ((indexItems bridgePoints 1).foldl scanLib.Insert scanLib.NewTree) 3 1 = some l ∧
      l.Perm (neighbourhood bridgePoints 1 3) ∧ l.Nodup ∧ 3 ∈ l ∧
      ∀ j, j ∈ l ↔ ∃ p q, bridgePoints[3]? = some p ∧ bridgePoints[j]? = some q ∧
        (p.Lat - q.Lat) ^ 2 + (p.Lon - q.Lon) ^ 2 ≤ (1 : ℚ) ^ 2 :=
  ⟨by decide!, by decide!, scanLib_contract, by decide, zero_le_one,
    regionQuery_exact scanLib scanLib_contract bridgePoints 1 3 (by decide) zero_le_one⟩

end Oracle

/-! ## C13 and C14: parameters outside the documented range, and runs without core points -/

section Parameters

variable {points : List Point} {eps : ℚ} {minPts : Int}

theorem neighbourhood_neg (points : List Point) {eps : ℚ} (heps : eps < 0) (i : Nat) :
    neighbourhood points eps i = [] := by
  unfold neighbourhood
  rw [List.filter_eq_nil_iff]
  intro j _ hw
  unfold withinEps at hw
  split at hw
  · simp only [hypotLe, decide_eq_true_eq] at hw
    linarith [hw.1]
  · exact absurd hw (by simp)

theorem ClustersOk.eq_nil_of_no_core {clusters : List (List Nat)}
    (h : ClustersOk points eps minPts clusters)
    (hno : ∀ i, i < points.length → ((neighbourhood points eps i).length : Int) < minPts) :
    clusters = [] := by
  cases clusters with
  | nil => rfl
  | cons c rest =>
    obtain ⟨s, _, hs, _, _⟩ := h.char c (List.mem_cons_self _ _)
    simp only [isCore, decide_eq_true_eq] at hs
    have := hno s hs.1
    omega

theorem main_eq (L : RtreeLib) {clusters : List (List Nat)}
    (hrun : dbscanClusters L points eps minPts = some clusters)
    (hok : ClustersOk points eps minPts clusters) :
    main L eps minPts (.ok points)
      = .printed (clusters.map (fun c => meanRecord (clusterMembers points c))) := by
  unfold main
  simp only [dbscan_eq L hrun hok]

/-- C13 (counterexample): `main` run with `minPts = 0`, and run with `eps = -1`, on the
chain input prints a cluster list (one cluster, and the empty list); neither run ends with a
fatal error. -/
theorem invalid_parameters_counterexample :
    main scanLib (6 / 1000) 0 (.ok chainPoints)
      = .printed [{ CentroidLat := 1 / 100, CentroidLon := 0,
                    IDs := ["p0", "p1", "p2", "p3", "p4"] }] ∧
    main scanLib (-1) 2 (.ok chainPoints) = .printed [] := by
  decide!

/-- C13 (amended): under the index contract, for every `eps` and `minPts`, also `eps < 0`
or `minPts < 1`, the run performs the clustering and prints one record per cluster, with no
parameter error; with `eps < 0` and `minPts ≥ 1` the printed list is empty, and with
`minPts < 1` every input point is a member of some cluster. -/
theorem parameters_not_validated (L : RtreeLib) (hL : L.Contract) (points : List Point)
    (eps : ℚ) (minPts : Int) :
    ∃ clusters, dbscanClusters L points eps minPts = some clusters ∧
      main L eps minPts (.ok points)
        = .printed (clusters.map (fun c => meanRecord (clusterMembers points c))) ∧
      (eps < 0 → 1 ≤ minPts → clusters = []) ∧
      (minPts < 1 → ∀ p, p < points.length → ∃ c ∈ clusters, p ∈ c) := by
  obtain ⟨clusters, hrun, hok, hcover⟩ := dbscanClusters_spec L hL points eps minPts
  refine ⟨clusters, hrun, main_eq L hrun hok, ?_, ?_⟩
  · intro heps hmin
    apply hok.eq_nil_of_no_core
    intro i _
    rw [neighbourhood_neg points heps i]
    simp only [List.length_nil, Nat.cast_zero]
    omega
  · intro hmin p hp
    have hcore : isCore points eps minPts p = true := by
      simp only [isCore, decide_eq_true_eq]
      exact ⟨hp, by omega⟩
    obtain ⟨c, hc, hpc, _⟩ := hcover p hcore
    exact ⟨c, hc, hpc⟩

/-- C13 (witness): the amended statement for the chain input with `eps = -1`,
`minPts = 0`, where every point becomes a cluster of its own. -/
theorem parameters_not_validated_witness :
    dbscanClusters scanLib chainPoints (-1) 0 = some [[0], [1], [2], [3], [4]] ∧
    scanLib.Contract ∧
    ∃ clusters, dbscanClusters scanLib chainPoints (-1) 0 = some clusters ∧
      main scanLib (-1) 0 (.ok chainPoints)
        = .printed (clusters.map (fun c => meanRecord (clusterMembers chainPoints c))) ∧
      ((-1 : ℚ) < 0 → (1 : Int) ≤ 0 → clusters = []) ∧
      ((0 : Int) < 1 → ∀ p, p < chainPoints.length → ∃ c ∈ clusters, p ∈ c) :=
  ⟨by decide!, scanLib_contract,
    parameters_not_validated scanLib scanLib_contract chainPoints (-1) 0⟩

/-- C14: under the index contract, if no input point has at least `minPts` points within
`eps` (counting itself), the clustering phase finds no cluster and `dbscan` returns the
empty list. -/
theorem no_core_empty_result (L : RtreeLib) (hL : L.Contract) (points : List Point) (eps : ℚ)
    (minPts : Int)
    (hno : ∀ i, i < points.length → ((neighbourhood points eps i).length : Int) < minPts) :
    dbscanClusters L points eps minPts = some [] ∧ dbscan L points eps minPts = some [] := by
  obtain ⟨clusters, hrun, hok, _⟩ := dbscanClusters_spec L hL points eps minPts
  have hnil := hok.eq_nil_of_no_core hno
  subst hnil
  exact ⟨hrun, dbscan_eq L hrun hok⟩

/-- C14 (witness): scenario S3 (four isolated points, `eps = 0.01`, `minPts = 2`) and
scenario S6 (the empty input) both give the empty list. -/
theorem no_core_empty_result_witness :
    scanLib.Contract ∧
    (∀ i, i < allNoisePoints.length →
      ((neighbourhood allNoisePoints (1 / 100) i).length : Int) < 2) ∧
    (dbscanClusters scanLib allNoisePoints (1 / 100) 2 = some [] ∧
      dbscan scanLib allNoisePoints (1 / 100) 2 = some []) ∧
    (dbscanClusters scanLib [] (1 / 100) 2 = some [] ∧
      dbscan scanLib [] (1 / 100) 2 = some []) := by
  have hno : ∀ i, i < allNoisePoints.length →
      ((neighbourhood allNoisePoints (1 / 100) i).length : Int) < 2 := by
    intro i hi
    have hi4 : i < 4 := hi
    interval_cases i <;> decide!
  exact ⟨scanLib_contract, hno,
    no_core_empty_result scanLib scanLib_contract allNoisePoints (1 / 100) 2 hno,
    no_core_empty_result scanLib scanLib_contract [] (1 / 100) 2
      (fun i hi => absurd hi (Nat.not_lt_zero i))⟩

end Parameters

/-! ## C20, C16: what a cluster consists of -/

section Shape

variable {points : List Point} {eps : ℚ} {minPts : Int}

/-- C20: an already visited index that is not yet in the current cluster is appended to
it, whatever the visited vector and the earlier clusters hold; and under the index contract
each cluster, as a set, is the set of core points chained to its seed together with every
point within `eps` of one of them. -/
theorem cluster_set_characterisation (L : RtreeLib) (hL : L.Contract) (points : List Point)
    (eps : ℚ) (minPts : Int) :
    (∀ (tree : L.Rtree) (fuel j idx : Nat) (neighbors C : List Nat) (V : List Bool),
      neighbors[j]? = some idx → V[idx]? = some true → contains C idx = false →
      expandLoop L points tree eps minPts (fuel + 1) j neighbors C V
        = expandLoop L points tree eps minPts fuel (j + 1) neighbors (C ++ [idx]) V) ∧
    ∃ clusters, dbscanClusters L points eps minPts = some clusters ∧
      ∀ c ∈ clusters, ∃ s, c.head? = some s ∧ isCore points eps minPts s = true ∧
        ∀ m, m ∈ c ↔ (CoreReach points eps minPts s m ∨
          ∃ q, CoreReach points eps minPts s q ∧ withinEps points eps q m = true) := by
  constructor
  · intro tree fuel j idx neighbors C V hj hv hin
    rw [expandLoop_visited L tree fuel j idx neighbors C V hj hv]
    simp only [hin, Bool.not_false, if_true]
  · obtain ⟨clusters, hrun, hok, _⟩ := dbscanClusters_spec L hL points eps minPts
    refine ⟨clusters, hrun, ?_⟩
    intro c hc
    obtain ⟨s, hhead, hs, _, hchar⟩ := hok.char c hc
    refine ⟨s, hhead, hs, fun m => ⟨fun hm => ?_, fun hm => ?_⟩⟩
    · rcases (hchar m).1 hm with rfl | h
      · exact Or.inl Relation.ReflTransGen.refl
      · exact Or.inr h
    · rcases hm with h | h
      · exact mem_of_coreReach hchar h
      · exact (hchar m).2 (Or.inr h)

/-- C20 (witness): in the bridge input index 3 is a member of the first cluster when the
second is expanded, and in `borderFirstPoints` index 0 is rejected by the outer loop before
the cluster is seeded; both are appended to the cluster being expanded. -/
theorem cluster_set_characterisation_witness :
    dbscanClusters scanLib bridgePoints 1 4 = some [[0, 1, 2, 3], [4, 3, 5, 6]] ∧
    dbscanClusters scanLib borderFirstPoints 1 3 = some [[1, 0, 2, 3]] ∧
    scanLib.Contract ∧
    ((∀ (tree : scanLib.Rtree) (fuel j idx : Nat) (neighbors C : List Nat) (V : List Bool),
      neighbors[j]? = some idx → V[idx]? = some true → contains C idx = false →
      expandLoop scanLib bridgePoints tree 1 4 (fuel + 1) j neighbors C V
        = expandLoop scanLib bridgePoints tree 1 4 fuel (j + 1) neighbors (C ++ [idx]) V) ∧
    ∃ clusters, dbscanClusters scanLib bridgePoints 1 4 = some clusters ∧
      ∀ c ∈ clusters, ∃ s, c.head? = some s ∧ isCore bridgePoints 1 4 s = true ∧
        ∀ m, m ∈ c ↔ (CoreReach bridgePoints 1 4 s m ∨
          ∃ q, CoreReach bridgePoints 1 4 s q ∧ withinEps bridgePoints 1 q m = true)) :=
  ⟨by decide!, by decide!, scanLib_contract,
    cluster_set_characterisation scanLib scanLib_contract bridgePoints 1 4⟩

/-- C16: when the index walked is unvisited and its neighbourhood has fewer than `minPts`
entries, the loop goes on with the work list unchanged; and under the index contract every
core member of a cluster is chained to the cluster's seed by core points, so two core points
not joined by such a chain are never members of the same cluster. -/
theorem border_never_extends (L : RtreeLib) (hL : L.Contract) (points : List Point) (eps : ℚ)
    (minPts : Int) :
    (∀ (tree : L.Rtree) (fuel j idx : Nat) (neighbors C l : List Nat) (V : List Bool),
      neighbors[j]? = some idx → V[idx]? = some false →
      regionQuery L points tree idx eps = some l → (l.length : Int) < minPts →
      expandLoop L points tree eps minPts (fuel + 1) j neighbors C V
        = expandLoop L points tree eps minPts fuel (j + 1) neighbors
            (if !contains C idx then C ++ [idx] else C) (V.set idx true)) ∧
    ∃ clusters, dbscanClusters L points eps minPts = some clusters ∧
      (∀ c ∈ clusters, ∃ s, c.head? = some s ∧
        ∀ m ∈ c, isCore points eps minPts m = true → CoreReach points eps minPts s m) ∧
      (∀ p q, isCore points eps minPts p = true → isCore points eps minPts q = true →
        ¬ CoreReach points eps minPts p q → ∀ c ∈ clusters, p ∈ c → q ∉ c) := by
  constructor
  · intro tree fuel j idx neighbors C l V hj hv hl hc
    exact expandLoop_noncore L tree fuel j idx neighbors C l V hj hv hl (by omega)
  · obtain ⟨clusters, hrun, hok, _⟩ := dbscanClusters_spec L hL points eps minPts
    refine ⟨clusters, hrun, ?_, ?_⟩
    · intro c hc
      obtain ⟨s, hhead, hs, _, hchar⟩ := hok.char c hc
      exact ⟨s, hhead, fun m hm hcm => coreReach_of_core_mem hs hchar hm hcm⟩
    · intro p q hp hq hnot c hc hpc hqc
      obtain ⟨s, _, hs, _, hchar⟩ := hok.char c hc
      exact hnot ((coreReach_symm (coreReach_of_core_mem hs hchar hpc hp)).trans
        (coreReach_of_core_mem hs hchar hqc hq))

/-- C16 (witness): scenario S5.  In the bridge input the core points 0 and 4 are linked
only through the non-core point 3, no chain of core points joins them, and they come out in
two separate clusters. -/
theorem border_never_extends_witness :
    dbscanClusters scanLib bridgePoints 1 4 = some [[0, 1, 2, 3], [4, 3, 5, 6]] ∧
    ¬ CoreReach bridgePoints 1 4 0 4 ∧ scanLib.Contract ∧
    ((∀ (tree : scanLib.Rtree) (fuel j idx : Nat) (neighbors C l : List Nat) (V : List Bool),
      neighbors[j]? = some idx → V[idx]? = some false →
      regionQuery scanLib bridgePoints tree idx 1 = some l → (l.length : Int) < 4 →
      expandLoop scanLib bridgePoints tree 1 4 (fuel + 1) j neighbors C V
        = expandLoop scanLib bridgePoints tree 1 4 fuel (j + 1) neighbors
            (if !contains C idx then C ++ [idx] else C) (V.set idx true)) ∧
    ∃ clusters, dbscanClusters scanLib bridgePoints 1 4 = some clusters ∧
      (∀ c ∈ clusters, ∃ s, c.head? = some s ∧
        ∀ m ∈ c, isCore bridgePoints 1 4 m = true → CoreReach bridgePoints 1 4 s m) ∧
      (∀ p q, isCore bridgePoints 1 4 p = true → isCore bridgePoints 1 4 q = true →
        ¬ CoreReach bridgePoints 1 4 p q → ∀ c ∈ clusters, p ∈ c → q ∉ c)) := by
  have hstay : ∀ x, CoreReach bridgePoints 1 4 0 x → x = 0 := by
    intro x hx
    induction hx with
    | refl => rfl
    | @tail a b _ hstep ih =>
      subst ih
      have hb : b < 7 := isCore_lt hstep.2.1
      interval_cases b <;>
        first
          | rfl
          | exact absurd hstep.2.1 (by decide!)
          | exact absurd hstep.2.2 (by decide!)
  exact ⟨by decide!, fun h => absurd (hstay 4 h) (by decide), scanLib_contract,
    border_never_extends scanLib scanLib_contract bridgePoints 1 4⟩

end Shape

/-! ## C17: no duplicates inside a cluster -/

section Duplicates

variable {points : List Point} {eps : ℚ} {minPts : Int}

/-- A property of the cluster and the visited vector that every iteration keeps holds of
the result of the loop of `expandCluster`. -/
theorem expandLoop_preserves (L : RtreeLib) (tree : L.Rtree)
    (P : List Nat → List Bool → Prop)
    (hpop : ∀ C V idx, P C V → P (if !contains C idx then C ++ [idx] else C) V)
    (hset : ∀ C V idx, V[idx]? = some false → P C V → P C (V.set idx true)) :
    ∀ (fuel j : Nat) (neighbors C : List Nat) (V : List Bool) (C' : List Nat) (V' : List Bool),
      expandLoop L points tree eps minPts fuel j neighbors C V = some (C', V') →
      P C V → P C' V' := by
  intro fuel
  induction fuel with
  | zero =>
    intro j neighbors C V C' V' h hP
    rw [expandLoop] at h
    split at h
    · exact absurd h (by simp)
    · simp only [Option.some.injEq, Prod.mk.injEq] at h
      rw [← h.1, ← h.2]
      exact hP
  | succ fuel ih =>
    intro j neighbors C V C' V' h hP
    rw [expandLoop] at h
    split at h
    · simp only [Option.some.injEq, Prod.mk.injEq] at h
      rw [← h.1, ← h.2]
      exact hP
    · rename_i idx _
      cases hv : V[idx]? with
      | none =>
        rw [hv] at h
        exact absurd h (by simp)
      | some v =>
        rw [hv] at h
        cases v with
        | true =>
          simp only [Option.some_bind, Option.bind_eq_bind, Bool.not_true, Bool.false_eq_true,
            if_false, Option.pure_def] at h
          exact ih _ _ _ _ _ _ h (hpop C V idx hP)
        | false =>
          cases hl : regionQuery L points tree idx eps with
          | none =>
            rw [hl] at h
            exact absurd h (by simp)
          | some l =>
            rw [hl] at h
            by_cases hc : minPts ≤ (l.length : Int)
            · simp only [Option.some_bind, Option.bind_eq_bind, Bool.not_false, if_true,
                Option.pure_def, ge_iff_le, hc] at h
              exact ih _ _ _ _ _ _ h (hpop C _ idx (hset C V idx hv hP))
            · simp only [Option.some_bind, Option.bind_eq_bind, Bool.not_false, if_true,
                Option.pure_def, ge_iff_le, hc, if_false] at h
              exact ih _ _ _ _ _ _ h (hpop C _ idx (hset C V idx hv hP))

theorem nodup_append_new {C : List Nat} (idx : Nat) (h : C.Nodup) :
    (if !contains C idx then C ++ [idx] else C).Nodup := by
  by_cases hin : contains C idx = true
  · simp only [hin, Bool.not_true, Bool.false_eq_true, if_false]
    exact h
  · have hnot : idx ∉ C := fun hm => hin ((contains_iff C idx).2 hm)
    simp only [Bool.not_eq_true] at hin
    simp only [hin, Bool.not_false, if_true]
    refine List.Nodup.append h (List.nodup_singleton idx) ?_
    intro a ha hb
    exact hnot ((List.mem_singleton.1 hb) ▸ ha)

/-- C17: `contains` decides membership; `expandCluster` returns the cluster it was given
followed by appended indices, and a cluster without repeated members stays without repeated
members, whatever the work list holds; under the index contract every cluster found by
`dbscan` lists each index at most once. -/
theorem cluster_no_duplicates (L : RtreeLib) (hL : L.Contract) (points : List Point)
    (eps : ℚ) (minPts : Int) :
    (∀ (slice : List Nat) (val : Nat), contains slice val = true ↔ val ∈ slice) ∧
    (∀ (tree : L.Rtree) (C neighbors : List Nat) (V : List Bool) (C' : List Nat)
      (V' : List Bool), expandCluster L points C neighbors V tree eps minPts = some (C', V') →
      (∃ ext, C' = C ++ ext) ∧ (C.Nodup → C'.Nodup)) ∧
    ∃ clusters, dbscanClusters L points eps minPts = some clusters ∧
      ∀ c ∈ clusters, c.Nodup ∧ ∀ i, c.count i ≤ 1 := by
  refine ⟨contains_iff, ?_, ?_⟩
  · intro tree C neighbors V C' V' h
    refine ⟨ expandLoop_prefix L tree _ _ _ _ _ _ _ h, fun hC => ?_⟩
    exact expandLoop_preserves L tree (fun C _ => C.Nodup)
      (fun C _ idx hP => nodup_append_new idx hP) (fun _ _ _ _ hP => hP) _ _ _ _ _ _ _ h hC
  · obtain ⟨clusters, hrun, hok, _⟩ := dbscanClusters_spec L hL points eps minPts
    refine ⟨clusters, hrun, ?_⟩
    intro c hc
    obtain ⟨_, _, _, hnodup, _⟩ := hok.char c hc
    exact ⟨hnodup, fun i => List.nodup_iff_count_le_one.1 hnodup i⟩

/-- C17 (witness): the chain of scenario S4, where the work list of the one cluster holds
the indices 1, 2 and 3 three times each and the cluster lists each index once. -/
theorem cluster_no_duplicates_witness :
    dbscanClusters scanLib chainPoints (6 / 1000) 2 = some [[0, 1, 2, 3, 4]] ∧
    scanLib.Contract ∧
    ((∀ (slice : List Nat) (val : Nat), contains slice val = true ↔ val ∈ slice) ∧
    (∀ (tree : scanLib.Rtree) (C neighbors : List Nat) (V : List Bool) (C' : List Nat)
      (V' : List Bool),
      expandCluster scanLib chainPoints C neighbors V tree (6 / 1000) 2 = some (C', V') →
      (∃ ext, C' = C ++ ext) ∧ (C.Nodup → C'.Nodup)) ∧
    ∃ clusters, dbscanClusters scanLib chainPoints (6 / 1000) 2 = some clusters ∧
      ∀ c ∈ clusters, c.Nodup ∧ ∀ i, c.count i ≤ 1) :=
  ⟨by decide!, scanLib_contract,
    cluster_no_duplicates scanLib scanLib_contract chainPoints (6 / 1000) 2⟩

end Duplicates

/-! ## The seed is the least core member -/

section SeedLeast

variable {points : List Point} {eps : ℚ} {minPts : Int}

/-- The outer loop keeps: no core member of a cluster has a smaller index than the seed. -/
theorem outerLoop_seed_least (L : RtreeLib) (tree : L.Rtree)
    (hrq : ∀ i, i < points.length → ∃ l, regionQuery L points tree i eps = some l ∧
      l.Perm (neighbourhood points eps i)) :
    ∀ (is : List Nat) (V : List Bool) (clusters out : List (List Nat)),
      OutInv points eps minPts V clusters → is.Pairwise (fun a b => a < b) →
      (∀ i ∈ is, i < points.length) → (∀ k, k < points.length → k ∉ is → Vis V k) →
      (∀ c ∈ clusters, ∀ s, c.head? = some s →
        ∀ m ∈ c, isCore points eps minPts m = true → s ≤ m) →
      outerLoop L points tree eps minPts is V clusters = some out →
      ∀ c ∈ out, ∀ s, c.head? = some s →
        ∀ m ∈ c, isCore points eps minPts m = true → s ≤ m := by
  intro is
  induction is with
  | nil =>
    intro V clusters out _ _ _ _ hQ h
    rw [outerLoop] at h
    cases h
    exact hQ
  | cons i is ih =>
    intro V clusters out hinv his hlt hseen hQ h
    have hi : i < points.length := hlt i (List.mem_cons_self _ _)
    have hiV : i < V.length := by rw [hinv.len]; exact hi
    have his' : is.Pairwise (fun a b => a < b) := (List.pairwise_cons.1 his).2
    have hlt' : ∀ k ∈ is, k < points.length := fun k hk => hlt k (List.mem_cons_of_mem _ hk)
    have hseen' : ∀ V' : List Bool, Vis V' i → (∀ k, Vis V k → Vis V' k) →
        ∀ k, k < points.length → k ∉ is → Vis V' k := by
      intro V' hvi hmono k hk hkis
      by_cases hki : k = i
      · exact hki ▸ hvi
      · exact hmono k (hseen k hk (fun hmem => by
          rcases List.mem_cons.1 hmem with h1 | h1
          · exact hki h1
          · exact hkis h1))
    cases hv : V[i] with
    | true =>
      have hv' : V[i]? = some true := by rw [List.getElem?_eq_getElem hiV, hv]
      rw [outerLoop_visited L tree i is V clusters hv'] at h
      exact ih V clusters out hinv his' hlt' (hseen' V hv' (fun _ hk => hk)) hQ h
    | false =>
      have hv' : V[i]? = some false := by rw [List.getElem?_eq_getElem hiV, hv]
      obtain ⟨l, hl, hperm⟩ := hrq i hi
      have hset : Vis (V.set i true) i := vis_set.2 (Or.inl ⟨rfl, hiV⟩)
      by_cases hc : (l.length : Int) < minPts
      · rw [outerLoop_noise L tree i is l V clusters hv' hl hc] at h
        have hnc : ¬ isCore points eps minPts i = true :=
          fun hcore => absurd ((isCore_iff_of_perm hi hperm).1 hcore) (by omega)
        exact ih (V.set i true) clusters out (hinv.mark_noncore hnc) his' hlt'
          (hseen' _ hset (fun _ hk => vis_set_of_vis hk)) hQ h
      · have hcore : isCore points eps minPts i = true :=
          (isCore_iff_of_perm hi hperm).2 (by omega)
        obtain ⟨C, V1, hE, hEinv⟩ := expandCluster_seed L tree hrq hinv.len hv' hcore hperm
        rw [outerLoop_seed L tree i is l C V V1 clusters hv' hl hc hE] at h
        refine ih V1 (clusters ++ [C]) out (hinv.add_cluster hEinv hv' hcore) his' hlt'
          (hseen' V1 (hEinv.cvis i (List.mem_of_mem_head? hEinv.head)) hEinv.mono) ?_ h
        intro c hcm s hs m hm hcm'
        rcases List.mem_append.1 hcm with hcm | hcm
        · exact hQ c hcm s hs m hm hcm'
        · rw [List.mem_singleton] at hcm
          subst hcm
          rw [hEinv.head] at hs
          cases hs
          by_contra hlt_m
          have hmi : m < i := by omega
          have hmnot : m ∉ i :: is := by
            intro hmem
            rcases List.mem_cons.1 hmem with h1 | h1
            · omega
            · have := (List.pairwise_cons.1 his).1 m h1
              omega
          have hvm : Vis V m := hseen m (isCore_lt hcm') hmnot
          obtain ⟨c', hc', _, hnear⟩ := hinv.cover m hvm hcm'
          rcases hEinv.prov m (Or.inl hm) with h1 | ⟨q, _, _, hq0, _, hw⟩
          · omega
          · exact hq0 (hinv.cvis c' hc' q (hnear q (by rw [withinEps_symm]; exact hw)))

/-- Under the index contract, the first member of a cluster is the least core point among
its members. -/
theorem dbscanClusters_seed_least (L : RtreeLib) (hL : L.Contract) (points : List Point)
    (eps : ℚ) (minPts : Int) (clusters : List (List Nat))
    (hrun : dbscanClusters L points eps minPts = some clusters) :
    ∀ c ∈ clusters, ∀ s, c.head? = some s →
      ∀ m ∈ c, isCore points eps minPts m = true → s ≤ m := by
  have hinit : OutInv points eps minPts (List.replicate points.length false) [] :=
    { len := List.length_replicate _ _
      cvis := fun c hc => absurd hc (List.not_mem_nil _)
      cover := by
        intro p hp
        unfold Vis at hp
        rw [List.getElem?_replicate] at hp
        split at hp <;> simp at hp
      char := fun c hc => absurd hc (List.not_mem_nil _)
      fresh := List.Pairwise.nil }
  exact outerLoop_seed_least L _ (fun i hi => regionQuery_spec L hL points eps i hi)
    (List.range points.length) _ [] clusters hinit (List.pairwise_lt_range _)
    (fun i hi => List.mem_range.1 hi)
    (fun k hk hnot => absurd (List.mem_range.2 hk) hnot)
    (fun c hc => absurd hc (List.not_mem_nil _)) hrun

end SeedLeast

/-! ## C15: scenario S1 -/

section ScenarioS1

theorem s1_members {clusters : List (List Nat)}
    (hok : ClustersOk s1Points (1 / 100) 3 clusters) {c : List Nat} (hc : c ∈ clusters)
    {m : Nat} (hm : m ∈ c) : m ∈ [0, 1, 2, 3, 4] := by
  have hm6 : m < 6 := hok.mem_lt hc hm
  have hne : m ≠ 5 := by
    rintro rfl
    rcases hok.mem_core_or_border hc hm with h | ⟨q, _, hq, hw⟩
    · exact absurd h (by decide!)
    · have hq6 : q < 6 := isCore_lt hq
      interval_cases q <;>
        first
          | exact absurd hw (by decide!)
          | exact absurd hq (by decide!)
  interval_cases m <;> first | decide | exact absurd rfl hne

theorem s1_near_zero {m : Nat} (hm : m ∈ [0, 1, 2, 3, 4]) :
    withinEps s1Points (1 / 100) 0 m = true ∧ isCore s1Points (1 / 100) 3 m = true := by
  simp only [List.mem_cons, List.mem_singleton, List.not_mem_nil, or_false] at hm
  rcases hm with rfl | rfl | rfl | rfl | rfl <;> exact ⟨by decide!, by decide!⟩

/-- C15: scenario S1.  Under the index contract, the six points with `eps = 0.01` and
`minPts = 3` give exactly one cluster; it starts with index 0 and consists of the indices
0 to 4, each once.  The one output record starts with `a`, lists `a, b, c, d, e` each once
and not `f`, and has the centroid (0.0005, 0.0005). -/
theorem scenario_S1 (L : RtreeLib) (hL : L.Contract) :
    ∃ (c : List Nat) (o : ClusterOutput),
      dbscanClusters L s1Points (1 / 100) 3 = some [c] ∧
      c.head? = some 0 ∧ c.Perm [0, 1, 2, 3, 4] ∧
      dbscan L s1Points (1 / 100) 3 = some [o] ∧
      o.IDs.head? = some "a" ∧ o.IDs.Perm ["a", "b", "c", "d", "e"] ∧ "f" ∉ o.IDs ∧
      o.CentroidLat = 5 / 10000 ∧ o.CentroidLon = 5 / 10000 := by
  obtain ⟨clusters, hrun, hok, hcover⟩ := dbscanClusters_spec L hL s1Points (1 / 100) 3
  have hleast := dbscanClusters_seed_least L hL s1Points (1 / 100) 3 clusters hrun
  obtain ⟨c0, hc0, h0, hnear⟩ := hcover 0 (by decide!)
  obtain ⟨a, ha⟩ := List.mem_iff_getElem?.1 hc0
  have hpos : ∀ (b : Nat) (c : List Nat), clusters[b]? = some c → b = a := by
    intro b c hb
    obtain ⟨s, hhead, hs, _, _⟩ := hok.char c (List.getElem?_mem hb)
    have hsc : s ∈ c := List.mem_of_mem_head? hhead
    have hs04 := s1_members hok (List.getElem?_mem hb) hsc
    exact hok.core_unique hb ha hs hsc (hnear s (s1_near_zero hs04).1)
  have hone : clusters = [c0] := by
    cases clusters with
    | nil => exact absurd hc0 (List.not_mem_nil _)
    | cons x rest =>
      cases rest with
      | nil =>
        rw [List.mem_singleton] at hc0
        rw [hc0]
      | cons y rest =>
        have e0 := hpos 0 x (by simp)
        have e1 := hpos 1 y (by simp)
        omega
  subst hone
  obtain ⟨s, hhead, hs, hnodup, _⟩ := hok.char c0 (List.mem_singleton_self _)
  have hs0 : s = 0 := by
    have := hleast c0 (List.mem_singleton_self _) s hhead 0 h0 (by decide!)
    omega
  subst hs0
  have hperm : c0.Perm [0, 1, 2, 3, 4] := by
    refine (List.perm_ext_iff_of_nodup hnodup (by decide)).2 (fun m => ⟨fun hm => ?_, fun hm => ?_⟩)
    · exact s1_members hok (List.mem_singleton_self _) hm
    · exact hnear m (s1_near_zero hm).1
  have hmem : (clusterMembers s1Points c0).Perm (clusterMembers s1Points [0, 1, 2, 3, 4]) :=
    hperm.filterMap _
  have hlen : (clusterMembers s1Points c0).length = 5 := by
    rw [hmem.length_eq]
    rfl
  have hids : ((clusterMembers s1Points c0).map (fun p => p.ID)).Perm
      ["a", "b", "c", "d", "e"] := hmem.map _
  refine ⟨c0, meanRecord (clusterMembers s1Points c0), hrun, hhead, hperm,
    dbscan_eq L hrun hok, ?_, hids, ?_, ?_, ?_⟩
  · cases c0 with
    | nil => simp at hhead
    | cons x rest =>
      simp only [List.head?_cons, Option.some.injEq] at hhead
      subst hhead
      rfl
  · intro hf
    exact absurd (hids.mem_iff.1 hf) (by decide)
  · simp only [meanRecord, hlen]
    rw [(hmem.map (fun p => p.Lat)).sum_eq]
    decide!
  · simp only [meanRecord, hlen]
    rw [(hmem.map (fun p => p.Lon)).sum_eq]
    decide!

/-- C15 (witness): with the reference index the output is the single record with centroid
(0.0005, 0.0005) and the identifiers `a, b, c, d, e` in this order. -/
theorem scenario_S1_witness :
    dbscan scanLib s1Points (1 / 100) 3
      = some [{ CentroidLat := 5 / 10000, CentroidLon := 5 / 10000,
                IDs := ["a", "b", "c", "d", "e"] }] ∧
    scanLib.Contract ∧
    ∃ (c : List Nat) (o : ClusterOutput),
      dbscanClusters scanLib s1Points (1 / 100) 3 = some [c] ∧
      c.head? = some 0 ∧ c.Perm [0, 1, 2, 3, 4] ∧
      dbscan scanLib s1Points (1 / 100) 3 = some [o] ∧
      o.IDs.head? = some "a" ∧ o.IDs.Perm ["a", "b", "c", "d", "e"] ∧ "f" ∉ o.IDs ∧
      o.CentroidLat = 5 / 10000 ∧ o.CentroidLon = 5 / 10000 :=
  ⟨by decide!, scanLib_contract, scenario_S1 scanLib scanLib_contract⟩

end ScenarioS1

/-! ## C18: termination of the expansion and the log of neighbourhood queries -/

section Termination

variable {points : List Point} {eps : ℚ} {minPts : Int}

/-- Without its log, `expandLoopLog` is `expandLoop`. -/
theorem expandLoopLog_erase (L : RtreeLib) (tree : L.Rtree) :
    ∀ (fuel j : Nat) (neighbors C : List Nat) (V : List Bool) (log : List (Nat × Bool)),
      (expandLoopLog L points tree eps minPts fuel j neighbors C V log).map
          (fun r => (r.1, r.2.1))
        = expandLoop L points tree eps minPts fuel j neighbors C V := by
  intro fuel
  induction fuel with
  | zero =>
    intro j neighbors C V log
    rw [expandLoopLog, expandLoop]
    split <;> rfl
  | succ fuel ih =>
    intro j neighbors C V log
    rw [expandLoopLog, expandLoop]
    cases hj : neighbors[j]? with
    | none => rfl
    | some idx =>
      dsimp only
      cases hv : V[idx]? with
      | none => rfl
      | some v =>
        cases v with
        | true =>
          simp only [Option.some_bind, Option.bind_eq_bind, Bool.not_true, Bool.false_eq_true,
            if_false, Option.pure_def]
          exact ih _ _ _ _ _
        | false =>
          cases hl : regionQuery L points tree idx eps with
          | none => rfl
          | some l =>
            by_cases hc : minPts ≤ (l.length : Int)
            · simp only [Option.some_bind, Option.bind_eq_bind, Bool.not_false, if_true,
                Option.pure_def, ge_iff_le, hc]
              exact ih _ _ _ _ _
            · simp only [Option.some_bind, Option.bind_eq_bind, Bool.not_false, if_true,
                Option.pure_def, ge_iff_le, hc, if_false]
              exact ih _ _ _ _ _

/-- What one run of the loop adds to the log: indices that were unvisited before the run
and are visited after it, each once; no visited entry is reset. -/
theorem expandLoopLog_log (L : RtreeLib) (tree : L.Rtree) :
    ∀ (fuel j : Nat) (neighbors C : List Nat) (V : List Bool) (log : List (Nat × Bool))
      (C' : List Nat) (V' : List Bool) (log' : List (Nat × Bool)),
      expandLoopLog L points tree eps minPts fuel j neighbors C V log = some (C', V', log') →
      ∃ new, log' = log ++ new ∧ V'.length = V.length ∧ (∀ i, Vis V i → Vis V' i) ∧
        (∀ e ∈ new, ¬ Vis V e.1 ∧ Vis V' e.1) ∧ (new.map Prod.fst).Nodup := by
  intro fuel
  induction fuel with
  | zero =>
    intro j neighbors C V log C' V' log' h
    rw [expandLoopLog] at h
    split at h
    · exact absurd h (by simp)
    · simp only [Option.some.injEq, Prod.mk.injEq] at h
      obtain ⟨_, rfl, rfl⟩ := h
      exact ⟨[], by simp, rfl, fun _ hi => hi, fun e he => absurd he (List.not_mem_nil _),
        List.nodup_nil⟩
  | succ fuel ih =>
    intro j neighbors C V log C' V' log' h
    rw [expandLoopLog] at h
    split at h
    · simp only [Option.some.injEq, Prod.mk.injEq] at h
      obtain ⟨_, rfl, rfl⟩ := h
      exact ⟨[], by simp, rfl, fun _ hi => hi, fun e he => absurd he (List.not_mem_nil _),
        List.nodup_nil⟩
    · rename_i idx _
      have fin : ∀ (nb1 : List Nat) (b : Bool), V[idx]? = some false →
          expandLoopLog L points tree eps minPts fuel (j + 1) nb1
            (if !contains C idx then C ++ [idx] else C) (V.set idx true) (log ++ [(idx, b)])
            = some (C', V', log') →
          ∃ new, log' = log ++ new ∧ V'.length = V.length ∧ (∀ i, Vis V i → Vis V' i) ∧
            (∀ e ∈ new, ¬ Vis V e.1 ∧ Vis V' e.1) ∧ (new.map Prod.fst).Nodup := by
        intro nb1 b hv hrec
        obtain ⟨new, h1, h2, h3, h4, h5⟩ := ih _ _ _ _ _ _ _ _ hrec
        have hidx : idx < V.length := (List.getElem?_eq_some.1 hv).1
        have hset : Vis (V.set idx true) idx := vis_set.2 (Or.inl ⟨rfl, hidx⟩)
        refine ⟨(idx, b) :: new, by rw [h1, List.append_assoc]; rfl, by rw [h2]; simp,
          fun i hi => h3 i (vis_set_of_vis hi), ?_, ?_⟩
        · intro e he
          rcases List.mem_cons.1 he with rfl | he
          · exact ⟨not_vis_of_false hv, h3 idx hset⟩
          · exact ⟨fun hVe => (h4 e he).1 (vis_set_of_vis hVe), (h4 e he).2⟩
        · rw [List.map_cons, List.nodup_cons]
          refine ⟨?_, h5⟩
          intro hmem
          obtain ⟨e, he, hfst⟩ := List.mem_map.1 hmem
          exact (h4 e he).1 (hfst ▸ hset)
      cases hv : V[idx]? with
      | none =>
        rw [hv] at h
        exact absurd h (by simp)
      | some v =>
        rw [hv] at h
        cases v with
        | true =>
          simp only [Option.some_bind, Option.bind_eq_bind, Bool.not_true, Bool.false_eq_true,
            if_false, Option.pure_def] at h
          exact ih _ _ _ _ _ _ _ _ h
        | false =>
          cases hl : regionQuery L points tree idx eps with
          | none =>
            rw [hl] at h
            exact absurd h (by simp)
          | some l =>
            rw [hl] at h
            by_cases hc : minPts ≤ (l.length : Int)
            · simp only [Option.some_bind, Option.bind_eq_bind, Bool.not_false, if_true,
                Option.pure_def, ge_iff_le, hc] at h
              exact fin _ _ hv h
            · simp only [Option.some_bind, Option.bind_eq_bind, Bool.not_false, if_true,
                Option.pure_def, ge_iff_le, hc, if_false] at h
              exact fin _ _ hv h

/-- Without its log, `outerLoopLog` is `outerLoop`. -/
theorem outerLoopLog_erase (L : RtreeLib) (tree : L.Rtree) :
    ∀ (is : List Nat) (V : List Bool) (clusters : List (List Nat)) (log : List (Nat × Bool)),
      (outerLoopLog L points tree eps minPts is V clusters log).map Prod.fst
        = outerLoop L points tree eps minPts is V clusters := by
  intro is
  induction is with
  | nil =>
    intro V clusters log
    rw [outerLoopLog, outerLoop]
    rfl
  | cons i is ih =>
    intro V clusters log
    rw [outerLoopLog, outerLoop]
    cases hv : V[i]? with
    | none => rfl
    | some v =>
      cases v with
      | true =>
        simp only [Option.some_bind, Option.bind_eq_bind, if_true]
        exact ih _ _ _
      | false =>
        cases hl : regionQuery L points tree i eps with
        | none => rfl
        | some l =>
          by_cases hc : (l.length : Int) < minPts
          · simp only [Option.some_bind, Option.bind_eq_bind, Bool.false_eq_true, if_false,
              hc, if_true]
            exact ih _ _ _
          · simp only [Option.some_bind, Option.bind_eq_bind, Bool.false_eq_true, if_false,
              hc, expandCluster]
            rw [← expandLoopLog_erase L tree _ 0 l [i] (V.set i true) (log ++ [(i, false)])]
            cases hE : expandLoopLog L points tree eps minPts
                (points.length * points.length + 1) 0 l [i] (V.set i true)
                (log ++ [(i, false)]) with
            | none => rfl
            | some r =>
              obtain ⟨C, V2, log2⟩ := r
              simp only [Option.some_bind, Option.map_some']
              exact ih _ _ _

/-- What a run of the outer loop adds to the log: indices that were unvisited before the
run, each once. -/
theorem outerLoopLog_log (L : RtreeLib) (tree : L.Rtree) :
    ∀ (is : List Nat) (V : List Bool) (clusters : List (List Nat)) (log : List (Nat × Bool))
      (out : List (List Nat)) (log' : List (Nat × Bool)),
      outerLoopLog L points tree eps minPts is V clusters log = some (out, log') →
      ∃ new, log' = log ++ new ∧ (∀ e ∈ new, ¬ Vis V e.1 ∧ e.1 < V.length) ∧
        (new.map Prod.fst).Nodup := by
  intro is
  induction is with
  | nil =>
    intro V clusters log out log' h
    rw [outerLoopLog] at h
    simp only [Option.some.injEq, Prod.mk.injEq] at h
    obtain ⟨_, rfl⟩ := h
    exact ⟨[], by simp, fun e he => absurd he (List.not_mem_nil _), List.nodup_nil⟩
  | cons i is ih =>
    intro V clusters log out log' h
    rw [outerLoopLog] at h
    cases hv : V[i]? with
    | none =>
      rw [hv] at h
      exact absurd h (by simp)
    | some v =>
      rw [hv] at h
      cases v with
      | true =>
        simp only [Option.some_bind, Option.bind_eq_bind, if_true] at h
        exact ih _ _ _ _ _ h
      | false =>
        have hiV : i < V.length := (List.getElem?_eq_some.1 hv).1
        have hset : Vis (V.set i true) i := vis_set.2 (Or.inl ⟨rfl, hiV⟩)
        cases hl : regionQuery L points tree i eps with
        | none =>
          rw [hl] at h
          exact absurd h (by simp)
        | some l =>
          rw [hl] at h
          by_cases hc : (l.length : Int) < minPts
          · simp only [Option.some_bind, Option.bind_eq_bind, Bool.false_eq_true, if_false,
              hc, if_true] at h
            obtain ⟨new, h1, h2, h3⟩ := ih _ _ _ _ _ h
            refine ⟨(i, false) :: new, by rw [h1, List.append_assoc]; rfl, ?_, ?_⟩
            · intro e he
              rcases List.mem_cons.1 he with rfl | he
              · exact ⟨not_vis_of_false hv, hiV⟩
              · exact ⟨fun hVe => (h2 e he).1 (vis_set_of_vis hVe),
                  by simpa using (h2 e he).2⟩
            · rw [List.map_cons, List.nodup_cons]
              refine ⟨?_, h3⟩
              intro hmem
              obtain ⟨e, he, hfst⟩ := List.mem_map.1 hmem
              exact (h2 e he).1 (hfst ▸ hset)
          · simp only [Option.some_bind, Option.bind_eq_bind, Bool.false_eq_true, if_false,
              hc] at h
            cases hE : expandLoopLog L points tree eps minPts
                (points.length * points.length + 1) 0 l [i] (V.set i true)
                (log ++ [(i, false)]) with
            | none =>
              rw [hE] at h
              exact absurd h (by simp)
            | some r =>
              obtain ⟨C, V2, log2⟩ := r
              rw [hE] at h
              simp only [Option.some_bind] at h
              obtain ⟨new1, e1, hlen, hmono, hnew1, hnd1⟩ :=
                expandLoopLog_log L tree _ _ _ _ _ _ _ _ _ hE
              obtain ⟨new2, e2, hnew2, hnd2⟩ := ih _ _ _ _ _ h
              have hlenV : V2.length = V.length := by rw [hlen]; simp
              refine ⟨(i, false) :: (new1 ++ new2), ?_, ?_, ?_⟩
              · rw [e2, e1]
                simp
              · intro e he
                rcases List.mem_cons.1 he with rfl | he
                · exact ⟨not_vis_of_false hv, hiV⟩
                · rcases List.mem_append.1 he with he | he
                  · exact ⟨fun hVe => (hnew1 e he).1 (vis_set_of_vis hVe),
                      by rw [← hlenV]; exact vis_lt (hnew1 e he).2⟩
                  · exact ⟨fun hVe => (hnew2 e he).1 (hmono _ (vis_set_of_vis hVe)),
                      by rw [← hlenV]; exact (hnew2 e he).2⟩
              · rw [List.map_cons, List.nodup_cons, List.map_append]
                refine ⟨?_, ?_⟩
                · intro hmem
                  rcases List.mem_append.1 hmem with hmem | hmem
                  · obtain ⟨e, he, hfst⟩ := List.mem_map.1 hmem
                    exact (hnew1 e he).1 (hfst ▸ hset)
                  · obtain ⟨e, he, hfst⟩ := List.mem_map.1 hmem
                    exact (hnew2 e he).1 (hmono _ (hfst ▸ hset))
                · refine List.Nodup.append hnd1 hnd2 ?_
                  intro x hx1 hx2
                  obtain ⟨e, he, hfst⟩ := List.mem_map.1 hx1
                  obtain ⟨e', he', hfst'⟩ := List.mem_map.1 hx2
                  exact (hnew2 e' he').1 (hfst' ▸ hfst ▸ (hnew1 e he).2)

/-- The loop of `expandCluster` returns for every visited vector of the input's length and
every work list of valid indices, as soon as the fuel covers the length of the work list
left plus `len(points)` for each unvisited entry. -/
theorem expandLoop_terminates (L : RtreeLib) (tree : L.Rtree)
    (hrq : ∀ i, i < points.length → ∃ l, regionQuery L points tree i eps = some l ∧
      l.Perm (neighbourhood points eps i)) :
    ∀ (fuel j : Nat) (neighbors C : List Nat) (V : List Bool),
      V.length = points.length → (∀ m ∈ neighbors.drop j, m < points.length) →
      (neighbors.drop j).length + points.length * V.count false ≤ fuel →
      ∃ C' V', expandLoop L points tree eps minPts fuel j neighbors C V = some (C', V') := by
  intro fuel
  induction fuel with
  | zero =>
    intro j neighbors C V _ _ hfuel
    have hlen : neighbors.length ≤ j := by
      rw [List.length_drop] at hfuel
      omega
    exact ⟨C, V, expandLoop_done L tree 0 j neighbors C V hlen⟩
  | succ fuel ih =>
    intro j neighbors C V hV hrange hfuel
    by_cases hlen : neighbors.length ≤ j
    · exact ⟨C, V, expandLoop_done L tree _ j neighbors C V hlen⟩
    · have hjlt : j < neighbors.length := by omega
      have hj : neighbors[j]? = some neighbors[j] := List.getElem?_eq_getElem hjlt
      rw [List.drop_eq_getElem_cons hjlt] at hrange hfuel
      have hidx : neighbors[j] < points.length := hrange _ (List.mem_cons_self _ _)
      have hidxV : neighbors[j] < V.length := by rw [hV]; exact hidx
      have hrest : ∀ m ∈ neighbors.drop (j + 1), m < points.length :=
        fun m hm => hrange m (List.mem_cons_of_mem _ hm)
      rw [List.length_cons] at hfuel
      cases hv : V[neighbors[j]] with
      | true =>
        have hv' : V[neighbors[j]]? = some true := by
          rw [List.getElem?_eq_getElem hidxV, hv]
        rw [expandLoop_visited L tree fuel j _ neighbors C V hj hv']
        exact ih _ _ _ _ hV hrest (by omega)
      | false =>
        have hv' : V[neighbors[j]]? = some false := by
          rw [List.getElem?_eq_getElem hidxV, hv]
        obtain ⟨l, hl, hperm⟩ := hrq _ hidx
        have hcount := count_false_set hv'
        have hll : l.length ≤ points.length := by
          rw [hperm.length_eq]
          exact neighbourhood_length_le _ _ _
        have hmul : points.length * (V.count false)
            = points.length * ((V.set neighbors[j] true).count false) + points.length := by
          rw [← hcount, Nat.mul_add, Nat.mul_one]
        have hV' : (V.set neighbors[j] true).length = points.length := by simp [hV]
        by_cases hc : minPts ≤ (l.length : Int)
        · rw [expandLoop_core L tree fuel j _ neighbors C l V hj hv' hl hc]
          apply ih _ _ _ _ hV'
          · rw [List.drop_append_of_le_length (by omega)]
            intro m hm
            rcases List.mem_append.1 hm with hm | hm
            · exact hrest m hm
            · exact (withinEps_lt (mem_neighbourhood.1 (hperm.mem_iff.1 hm))).2
          · rw [List.drop_append_of_le_length (by omega), List.length_append]
            omega
        · rw [expandLoop_noncore L tree fuel j _ neighbors C l V hj hv' hl hc]
          exact ih _ _ _ _ hV' hrest (by omega)

/-- C18: under the index contract, (1) the loop of `expandCluster` returns for every visited
vector of the input's length, every work list of valid indices and every cluster, given
fuel for the work list plus `len(points)` per unvisited entry, and no visited entry is
reset; (2) when the index walked is already visited, the work list and the visited vector
are left as they are; (3) the logged loop computes what the loop computes, and (4) each of
its log entries is an index whose visited entry it has changed from false to true, each
index once, while no visited entry is reset; (5) over the whole run of `dbscan` no index is queried twice, so there are at
most `len(points)` queries and at most `len(points)` extensions of a work list. -/
theorem expansion_terminates (L : RtreeLib) (hL : L.Contract) (points : List Point) (eps : ℚ)
    (minPts : Int) :
    (∀ (neighbors C : List Nat) (V : List Bool) (fuel : Nat), V.length = points.length →
      (∀ m ∈ neighbors, m < points.length) →
      neighbors.length + points.length * V.count false ≤ fuel →
      ∃ C' V', expandLoop L points ((indexItems points eps).foldl L.Insert L.NewTree) eps
          minPts fuel 0 neighbors C V = some (C', V') ∧
        V'.length = V.length ∧ ∀ i, Vis V i → Vis V' i) ∧
    (∀ (tree : L.Rtree) (fuel j idx : Nat) (neighbors C : List Nat) (V : List Bool),
      neighbors[j]? = some idx → V[idx]? = some true →
      expandLoop L points tree eps minPts (fuel + 1) j neighbors C V
        = expandLoop L points tree eps minPts fuel (j + 1) neighbors
            (if !contains C idx then C ++ [idx] else C) V) ∧
    (∀ (tree : L.Rtree) (fuel j : Nat) (neighbors C : List Nat) (V : List Bool)
      (log : List (Nat × Bool)),
      (expandLoopLog L points tree eps minPts fuel j neighbors C V log).map
          (fun r => (r.1, r.2.1))
        = expandLoop L points tree eps minPts fuel j neighbors C V) ∧
    (∀ (tree : L.Rtree) (fuel j : Nat) (neighbors C : List Nat) (V : List Bool)
      (log : List (Nat × Bool)) (C' : List Nat) (V' : List Bool) (log' : List (Nat × Bool)),
      expandLoopLog L points tree eps minPts fuel j neighbors C V log = some (C', V', log') →
      ∃ new, log' = log ++ new ∧ (∀ i, Vis V i → Vis V' i) ∧
        (∀ e ∈ new, ¬ Vis V e.1 ∧ Vis V' e.1) ∧ (new.map Prod.fst).Nodup) ∧
    ∃ (clusters : List (List Nat)) (log : List (Nat × Bool)),
      dbscanLog L points eps minPts = some (clusters, log) ∧
      dbscanClusters L points eps minPts = some clusters ∧
      (log.map Prod.fst).Nodup ∧ log.length ≤ points.length ∧
      (log.filter (fun e => e.2)).length ≤ points.length := by
  refine ⟨?_, ?_, ?_, ?_, ?_⟩
  · intro neighbors C V fuel hV hrange hfuel
    obtain ⟨C', V', h⟩ := expandLoop_terminates L _
      (fun i hi => regionQuery_spec L hL points eps i hi) fuel 0 neighbors C V hV
      (by rw [List.drop_zero]; exact hrange) (by rw [List.drop_zero]; exact hfuel)
    have hP := expandLoop_preserves L _
      (fun _ W => W.length = V.length ∧ ∀ i, Vis V i → Vis W i)
      (fun _ _ _ hP => hP)
      (fun _ W idx _ hP => ⟨by rw [List.length_set]; exact hP.1,
        fun i hi => vis_set_of_vis (hP.2 i hi)⟩)
      _ _ _ _ _ _ _ h ⟨rfl, fun _ hi => hi⟩
    exact ⟨C', V', h, hP.1, hP.2⟩
  · intro tree fuel j idx neighbors C V hj hv
    exact expandLoop_visited L tree fuel j idx neighbors C V hj hv
  · intro tree fuel j neighbors C V log
    exact expandLoopLog_erase L tree fuel j neighbors C V log
  · intro tree fuel j neighbors C V log C' V' log' h
    obtain ⟨new, h1, _, h3, h4, h5⟩ := expandLoopLog_log L tree _ _ _ _ _ _ _ _ _ h
    exact ⟨new, h1, h3, h4, h5⟩
  · obtain ⟨clusters, hrun, _, _⟩ := dbscanClusters_spec L hL points eps minPts
    have herase := @outerLoopLog_erase points eps minPts L
      ((indexItems points eps).foldl L.Insert L.NewTree) (List.range points.length)
      (List.replicate points.length false) [] []
    have hrun' : outerLoop L points ((indexItems points eps).foldl L.Insert L.NewTree) eps
        minPts (List.range points.length) (List.replicate points.length false) []
        = some clusters := hrun
    rw [hrun', Option.map_eq_some'] at herase
    obtain ⟨⟨cl, log⟩, hlog, hcl⟩ := herase
    simp only at hcl
    subst hcl
    obtain ⟨new, h1, h2, h3⟩ := outerLoopLog_log L _ _ _ _ _ _ _ hlog
    rw [List.nil_append] at h1
    subst h1
    have hsub : log.map Prod.fst ⊆ List.range points.length := by
      intro x hx
      obtain ⟨e, he, rfl⟩ := List.mem_map.1 hx
      have := (h2 e he).2
      rw [List.length_replicate] at this
      exact List.mem_range.2 this
    have hlen : log.length ≤ points.length := by
      have := (h3.subperm hsub).length_le
      simpa using this
    exact ⟨cl, log, hlog, hrun, h3, hlen, (List.length_filter_le _ _).trans hlen⟩

/-- C18 (witness): the chain of scenario S4.  The run queries each of the five indices
once, the seed from the outer loop and the others from the expansion, which extends the
work list four times. -/
theorem expansion_terminates_witness :
    dbscanLog scanLib chainPoints (6 / 1000) 2
      = some ([[0, 1, 2, 3, 4]], [(0, false), (1, true), (2, true), (3, true), (4, true)]) ∧
    scanLib.Contract ∧
    ((∀ (neighbors C : List Nat) (V : List Bool) (fuel : Nat), V.length = chainPoints.length →
      (∀ m ∈ neighbors, m < chainPoints.length) →
      neighbors.length + chainPoints.length * V.count false ≤ fuel →
      ∃ C' V', expandLoop scanLib chainPoints
          ((indexItems chainPoints (6 / 1000)).foldl scanLib.Insert scanLib.NewTree) (6 / 1000)
          2 fuel 0 neighbors C V = some (C', V') ∧
        V'.length = V.length ∧ ∀ i, Vis V i → Vis V' i) ∧
    (∀ (tree : scanLib.Rtree) (fuel j idx : Nat) (neighbors C : List Nat) (V : List Bool),
      neighbors[j]? = some idx → V[idx]? = some true →
      expandLoop scanLib chainPoints tree (6 / 1000) 2 (fuel + 1) j neighbors C V
        = expandLoop scanLib chainPoints tree (6 / 1000) 2 fuel (j + 1) neighbors
            (if !contains C idx then C ++ [idx] else C) V) ∧
    (∀ (tree : scanLib.Rtree) (fuel j : Nat) (neighbors C : List Nat) (V : List Bool)
      (log : List (Nat × Bool)),
      (expandLoopLog scanLib chainPoints tree (6 / 1000) 2 fuel j neighbors C V log).map
          (fun r => (r.1, r.2.1))
        = expandLoop scanLib chainPoints tree (6 / 1000) 2 fuel j neighbors C V) ∧
    (∀ (tree : scanLib.Rtree) (fuel j : Nat) (neighbors C : List Nat) (V : List Bool)
      (log : List (Nat × Bool)) (C' : List Nat) (V' : List Bool) (log' : List (Nat × Bool)),
      expandLoopLog scanLib chainPoints tree (6 / 1000) 2 fuel j neighbors C V log
        = some (C', V', log') →
      ∃ new, log' = log ++ new ∧ (∀ i, Vis V i → Vis V' i) ∧
        (∀ e ∈ new, ¬ Vis V e.1 ∧ Vis V' e.1) ∧ (new.map Prod.fst).Nodup) ∧
    ∃ (clusters : List (List Nat)) (log : List (Nat × Bool)),
      dbscanLog scanLib chainPoints (6 / 1000) 2 = some (clusters, log) ∧
      dbscanClusters scanLib chainPoints (6 / 1000) 2 = some clusters ∧
      (log.map Prod.fst).Nodup ∧ log.length ≤ chainPoints.length ∧
      (log.filter (fun e => e.2)).length ≤ chainPoints.length) :=
  ⟨by decide!, scanLib_contract,
    expansion_terminates scanLib scanLib_contract chainPoints (6 / 1000) 2⟩

end Termination

/-! ## The index with the rectangle test of `rtreego` -/

section StrictIndex

variable {points : List Point} {eps : ℚ} {minPts : Int}

theorem strictLib_insert (items acc : List rtreeItem) :
    items.foldl strictLib.Insert acc = acc ++ items := by
  induction items generalizing acc with
  | nil => simp
  | cons a items ih =>
    rw [List.foldl_cons, ih]
    show (acc ++ [a]) ++ items = acc ++ a :: items
    simp

/-- The reference index `strictLib` behaves as the linked package does. -/
theorem strictLib_contract : strictLib.StrictContract := by
  intro items rect
  rw [show strictLib.NewTree = ([] : List rtreeItem) from rfl, strictLib_insert,
    List.nil_append]
  exact List.Perm.refl _

theorem intersectStrict_of_hypotLe {p q : Point} {eps : ℚ} (hpos : 0 < eps)
    (h : hypotLe (q.Lat - p.Lat) (q.Lon - p.Lon) eps = true) :
    intersectStrict (ToRect p.Lat p.Lon eps) (ToRect q.Lat q.Lon eps) = true := by
  obtain ⟨_, h1, h2, h3, h4⟩ := hypotLe_bounds h
  simp only [intersectStrict, ToRect, decide_eq_true_eq, not_or, not_le]
  refine ⟨⟨?_, ?_⟩, ⟨?_, ?_⟩⟩ <;> linarith

theorem intersectStrict_zero (p q : Point) :
    intersectStrict (ToRect p.Lat p.Lon 0) (ToRect q.Lat q.Lon 0) = false := by
  simp only [intersectStrict, ToRect, decide_eq_false_iff_not, add_zero, sub_zero]
  rintro ⟨h, _⟩
  exact h (le_total q.Lat p.Lat)

/-- With the rectangle test of `rtreego` and `eps > 0`, `regionQuery` on a valid index
returns a rearrangement of the brute-force neighbourhood. -/
theorem regionQuery_spec_strict (L : RtreeLib) (hL : L.StrictContract) (points : List Point)
    (eps : ℚ) (heps : 0 < eps) (idx : Nat) (hidx : idx < points.length) :
    ∃ l, regionQuery L points ((indexItems points eps).foldl L.Insert L.NewTree) idx eps
        = some l ∧ l.Perm (neighbourhood points eps idx) := by
  have hq : points[idx]? = some points[idx] := List.getElem?_eq_getElem hidx
  have hperm := hL (indexItems points eps) (ToRect (points[idx]).Lat (points[idx]).Lon eps)
  have hcs : ∀ it ∈ L.SearchIntersect ((indexItems points eps).foldl L.Insert L.NewTree)
      (ToRect (points[idx]).Lat (points[idx]).Lon eps), it.index < points.length := by
    intro it hit
    obtain ⟨p, hp, _⟩ := mem_indexItems ((List.mem_filter.1 (hperm.mem_iff.1 hit)).1)
    exact (List.getElem?_eq_some.1 hp).1
  refine ⟨[] ++ ((L.SearchIntersect ((indexItems points eps).foldl L.Insert L.NewTree)
      (ToRect (points[idx]).Lat (points[idx]).Lon eps)).map (fun it => it.index)).filter
      (withinEps points eps idx), ?_, ?_⟩
  · unfold regionQuery
    rw [hq]
    simp only [Option.some_bind, Option.bind_eq_bind]
    exact regionQuery_fold points eps idx _ hq _ hcs []
  · rw [List.nil_append]
    refine ((hperm.map _).filter _).trans ?_
    rw [filter_map_filter_of_imp, indexItems_index]
    · exact List.Perm.refl _
    · intro it hit hw
      obtain ⟨p, hp, hr⟩ := mem_indexItems hit
      rw [hr]
      apply intersectStrict_of_hypotLe heps
      unfold withinEps at hw
      rw [hq, hp] at hw
      exact hw

/-- With the rectangle test of `rtreego` and `eps = 0`, the search finds no candidate and
`regionQuery` returns the empty list for every valid index, the index itself included. -/
theorem regionQuery_strict_zero (L : RtreeLib) (hL : L.StrictContract) (points : List Point)
    (idx : Nat) (hidx : idx < points.length) :
    regionQuery L points ((indexItems points 0).foldl L.Insert L.NewTree) idx 0 = some [] := by
  have hq : points[idx]? = some points[idx] := List.getElem?_eq_getElem hidx
  have hperm := hL (indexItems points 0) (ToRect (points[idx]).Lat (points[idx]).Lon 0)
  have hnil : (indexItems points 0).filter
      (fun it => intersectStrict it.rect (ToRect (points[idx]).Lat (points[idx]).Lon 0))
      = [] := by
    rw [List.filter_eq_nil_iff]
    intro it hit
    obtain ⟨p, _, hr⟩ := mem_indexItems hit
    rw [hr, intersectStrict_zero]
    simp
  rw [hnil] at hperm
  unfold regionQuery
  rw [hq]
  simp only [Option.some_bind, Option.bind_eq_bind]
  rw [hperm.eq_nil]
  rfl

/-- For `eps > 0` the two rectangle tests give the same neighbourhoods. -/
theorem regionQuery_spec_pos (L : RtreeLib) (hL : L.Contract ∨ L.StrictContract)
    (points : List Point) (eps : ℚ) (heps : 0 < eps) (idx : Nat)
    (hidx : idx < points.length) :
    ∃ l, regionQuery L points ((indexItems points eps).foldl L.Insert L.NewTree) idx eps
        = some l ∧ l.Perm (neighbourhood points eps idx) := by
  rcases hL with hL | hL
  · exact regionQuery_spec L hL points eps idx hidx
  · exact regionQuery_spec_strict L hL points eps heps idx hidx

/-- Whenever `regionQuery` returns a rearrangement of the brute-force neighbourhood on every
valid index, the clustering phase returns, and its clusters satisfy `ClustersOk` and contain
every core point together with its whole neighbourhood. -/
theorem dbscanClusters_spec_of_query (L : RtreeLib) (points : List Point) (eps : ℚ)
    (minPts : Int)
    (hrq : ∀ i, i < points.length → ∃ l,
      regionQuery L points ((indexItems points eps).foldl L.Insert L.NewTree) i eps = some l ∧
      l.Perm (neighbourhood points eps i)) :
    ∃ clusters, dbscanClusters L points eps minPts = some clusters ∧
      ClustersOk points eps minPts clusters ∧
      ∀ p, isCore points eps minPts p = true →
        ∃ c ∈ clusters, p ∈ c ∧ ∀ j, withinEps points eps p j = true → j ∈ c := by
  have hinit : OutInv points eps minPts (List.replicate points.length false) [] :=
    { len := List.length_replicate _ _
      cvis := fun c hc => absurd hc (List.not_mem_nil _)
      cover := by
        intro p hp
        unfold Vis at hp
        rw [List.getElem?_replicate] at hp
        split at hp <;> simp at hp
      char := fun c hc => absurd hc (List.not_mem_nil _)
      fresh := List.Pairwise.nil }
  obtain ⟨out, V', seeds', h1, h2, h3, h4, h5⟩ :=
    outerLoop_spec L _ hrq (List.range points.length) _ [] [] hinit
      (List.pairwise_lt_range _) (fun i hi => List.mem_range.1 hi) rfl List.Pairwise.nil
      (fun s hs => absurd hs (List.not_mem_nil _))
  refine ⟨out, h1, ⟨h2.char, h2.fresh, seeds', h4, h5⟩, ?_⟩
  intro p hp
  exact h2.cover p (h3 p (Or.inr (List.mem_range.2 (isCore_lt hp)))) hp

/-- For `eps > 0`, with either rectangle test, the clustering phase returns, and its
clusters satisfy `ClustersOk` and contain every core point with its whole neighbourhood. -/
theorem dbscanClusters_spec_pos (L : RtreeLib) (hL : L.Contract ∨ L.StrictContract)
    (points : List Point) (eps : ℚ) (minPts : Int) (heps : 0 < eps) :
    ∃ clusters, dbscanClusters L points eps minPts = some clusters ∧
      ClustersOk points eps minPts clusters ∧
      ∀ p, isCore points eps minPts p = true →
        ∃ c ∈ clusters, p ∈ c ∧ ∀ j, withinEps points eps p j = true → j ∈ c :=
  dbscanClusters_spec_of_query L points eps minPts
    (fun i hi => regionQuery_spec_pos L hL points eps heps i hi)

/-- When every neighbourhood query returns fewer than `minPts` indices, the outer loop
rejects every index and adds no cluster. -/
theorem outerLoop_all_noise (L : RtreeLib) (tree : L.Rtree)
    (hrq : ∀ i, i < points.length → ∃ l, regionQuery L points tree i eps = some l ∧
      (l.length : Int) < minPts) :
    ∀ (is : List Nat) (V : List Bool) (clusters : List (List Nat)),
      V.length = points.length → (∀ i ∈ is, i < points.length) →
      outerLoop L points tree eps minPts is V clusters = some clusters := by
  intro is
  induction is with
  | nil =>
    intro V clusters _ _
    rw [outerLoop]
  | cons i is ih =>
    intro V clusters hV hlt
    have hi : i < points.length := hlt i (List.mem_cons_self _ _)
    have hiV : i < V.length := by rw [hV]; exact hi
    have hlt' : ∀ k ∈ is, k < points.length := fun k hk => hlt k (List.mem_cons_of_mem _ hk)
    cases hv : V[i] with
    | true =>
      have hv' : V[i]? = some true := by rw [List.getElem?_eq_getElem hiV, hv]
      rw [outerLoop_visited L tree i is V clusters hv']
      exact ih V clusters hV hlt'
    | false =>
      have hv' : V[i]? = some false := by rw [List.getElem?_eq_getElem hiV, hv]
      obtain ⟨l, hl, hc⟩ := hrq i hi
      rw [outerLoop_noise L tree i is l V clusters hv' hl hc]
      exact ih _ clusters (by simp [hV]) hlt'

/-- With the rectangle test of `rtreego`, `eps = 0` and `minPts ≥ 1`, the clustering phase
finds no cluster and `dbscan` returns the empty list, whatever the input. -/
theorem dbscan_strict_zero (L : RtreeLib) (hL : L.StrictContract) (points : List Point)
    (minPts : Int) (hmin : 1 ≤ minPts) :
    dbscanClusters L points 0 minPts = some [] ∧ dbscan L points 0 minPts = some [] := by
  have hrun : dbscanClusters L points 0 minPts = some [] := by
    unfold dbscanClusters
    apply outerLoop_all_noise L _ ?_ _ _ _ (List.length_replicate _ _)
      (fun i hi => List.mem_range.1 hi)
    intro i hi
    refine ⟨[], regionQuery_strict_zero L hL points i hi, ?_⟩
    simp only [List.length_nil, Nat.cast_zero]
    omega
  refine ⟨hrun, ?_⟩
  unfold dbscan
  rw [hrun]
  rfl

end StrictIndex

/-! ## C2, C5, C10, C11, C19: where `eps = 0` and `eps > 0` differ -/

section Boundary

variable {points : List Point} {eps : ℚ} {minPts : Int}

/-- C2 (counterexample): with the rectangle test of `rtreego` and `eps = 0`, the points 0 and
1 of `coincidentPoints` (both at (0,0)) are core points for `minPts = 2` and are within
`eps` of each other, a chain of core points; the run finds no cluster, so no cluster holds
them. -/
theorem transitive_closure_counterexample :
    isCore coincidentPoints 0 2 0 = true ∧ isCore coincidentPoints 0 2 1 = true ∧
    withinEps coincidentPoints 0 0 1 = true ∧ CoreReach coincidentPoints 0 2 0 1 ∧
    dbscanClusters strictLib coincidentPoints 0 2 = some [] ∧
    dbscan strictLib coincidentPoints 0 2 = some [] :=
  ⟨by decide!, by decide!, by decide!,
    Relation.ReflTransGen.single ⟨by decide!, by decide!, by decide!⟩, by decide!, by decide!⟩

/-- C2 (amended): for `eps > 0`, with either rectangle test, two core points joined by a
chain of core points with consecutive points within `eps` are members of one and the same
cluster: some cluster contains both, and every cluster that contains one contains the
other. -/
theorem transitive_closure_eps_pos (L : RtreeLib) (hL : L.Contract ∨ L.StrictContract)
    (points : List Point) (eps : ℚ) (minPts : Int) (heps : 0 < eps) (p q : Nat)
    (hp : isCore points eps minPts p = true) (hq : isCore points eps minPts q = true)
    (hchain : CoreReach points eps minPts p q) :
    ∃ clusters, dbscanClusters L points eps minPts = some clusters ∧
      (∃ c ∈ clusters, p ∈ c ∧ q ∈ c) ∧ (∀ c ∈ clusters, p ∈ c ↔ q ∈ c) := by
  obtain ⟨clusters, hrun, hok, hcover⟩ := dbscanClusters_spec_pos L hL points eps minPts heps
  have hsame : ∀ x y, isCore points eps minPts x = true → isCore points eps minPts y = true →
      CoreReach points eps minPts x y → ∀ c ∈ clusters, x ∈ c → y ∈ c := by
    intro x y hx _ hxy c hc hxc
    obtain ⟨s, _, hs, _, hchar⟩ := hok.char c hc
    exact mem_of_coreReach hchar ((coreReach_of_core_mem hs hchar hxc hx).trans hxy)
  refine ⟨clusters, hrun, ?_, ?_⟩
  · obtain ⟨c, hc, hpc, _⟩ := hcover p hp
    exact ⟨c, hc, hpc, hsame p q hp hq hchain c hc hpc⟩
  · intro c hc
    exact ⟨hsame p q hp hq hchain c hc, hsame q p hq hp (coreReach_symm hchain) c hc⟩

/-- C2 (witness): scenario S4 with the rectangle test of `rtreego`.  The five points at
x = 0, 0.005, 0.010, 0.015, 0.020 with `eps = 0.006` and `minPts = 2` give exactly one
cluster, which holds all five points; indices 0 and 4 are chained through 1, 2 and 3. -/
theorem transitive_closure_eps_pos_witness :
    dbscanClusters strictLib chainPoints (6 / 1000) 2 = some [[0, 1, 2, 3, 4]] ∧
    (strictLib.Contract ∨ strictLib.StrictContract) ∧ (0 : ℚ) < 6 / 1000 ∧
    isCore chainPoints (6 / 1000) 2 0 = true ∧ isCore chainPoints (6 / 1000) 2 4 = true ∧
    CoreReach chainPoints (6 / 1000) 2 0 4 ∧
    ∃ clusters, dbscanClusters strictLib chainPoints (6 / 1000) 2 = some clusters ∧
      (∃ c ∈ clusters, 0 ∈ c ∧ 4 ∈ c) ∧ (∀ c ∈ clusters, 0 ∈ c ↔ 4 ∈ c) := by
  have h01 : CoreStep chainPoints (6 / 1000) 2 0 1 := ⟨by decide!, by decide!, by decide!⟩
  have h12 : CoreStep chainPoints (6 / 1000) 2 1 2 := ⟨by decide!, by decide!, by decide!⟩
  have h23 : CoreStep chainPoints (6 / 1000) 2 2 3 := ⟨by decide!, by decide!, by decide!⟩
  have h34 : CoreStep chainPoints (6 / 1000) 2 3 4 := ⟨by decide!, by decide!, by decide!⟩
  have hchain : CoreReach chainPoints (6 / 1000) 2 0 4 :=
    (((Relation.ReflTransGen.single h01).tail h12).tail h23).tail h34
  exact ⟨by decide!, Or.inr strictLib_contract, by norm_num, h01.1, h34.2.1, hchain,
    transitive_closure_eps_pos strictLib (Or.inr strictLib_contract) chainPoints (6 / 1000) 2
      (by norm_num) 0 4 h01.1 h34.2.1 hchain⟩

/-- C5 (counterexample): with the rectangle test of `rtreego`, `eps = 0` and `minPts = 3`,
index 0 of `coincidentPoints` is a core point (three input points lie at (0,0)), yet the
run finds no cluster and the output is empty. -/
theorem clustered_iff_core_or_border_counterexample :
    isCore coincidentPoints 0 3 0 = true ∧ neighbourhood coincidentPoints 0 0 = [0, 1, 4] ∧
    dbscanClusters strictLib coincidentPoints 0 3 = some [] ∧
    dbscan strictLib coincidentPoints 0 3 = some [] := by
  decide!

/-- C5 (amended): for `eps > 0`, with either rectangle test, a point index is a member of
some cluster if and only if the point is a core point or lies within `eps` of a core point;
so a noise point is in no cluster. -/
theorem clustered_iff_core_or_border_eps_pos (L : RtreeLib)
    (hL : L.Contract ∨ L.StrictContract) (points : List Point) (eps : ℚ) (minPts : Int)
    (heps : 0 < eps) :
    ∃ clusters, dbscanClusters L points eps minPts = some clusters ∧
      ∀ p : Nat, (∃ c ∈ clusters, p ∈ c) ↔
        (isCore points eps minPts p = true ∨
          ∃ q, isCore points eps minPts q = true ∧ withinEps points eps q p = true) := by
  obtain ⟨clusters, hrun, hok, hcover⟩ := dbscanClusters_spec_pos L hL points eps minPts heps
  refine ⟨clusters, hrun, ?_⟩
  intro p
  constructor
  · rintro ⟨c, hc, hp⟩
    rcases hok.mem_core_or_border hc hp with h | ⟨q, _, hq, hw⟩
    · exact Or.inl h
    · exact Or.inr ⟨q, hq, hw⟩
  · intro h
    rcases h with h | ⟨q, hq, hw⟩
    · obtain ⟨c, hc, hpc, _⟩ := hcover p h
      exact ⟨c, hc, hpc⟩
    · obtain ⟨c, hc, _, hnear⟩ := hcover q hq
      exact ⟨c, hc, hnear p hw⟩

/-- C5 (witness): with the rectangle test of `rtreego`, in `borderFirstPoints` with
`eps = 1`, `minPts = 3` the outer loop first examines and rejects index 0, which the cluster
seeded at index 1 then takes in as a border point; the isolated index 4 is in no cluster. -/
theorem clustered_iff_core_or_border_eps_pos_witness :
    dbscanClusters strictLib borderFirstPoints 1 3 = some [[1, 0, 2, 3]] ∧
    (strictLib.Contract ∨ strictLib.StrictContract) ∧ (0 : ℚ) < 1 ∧
    ∃ clusters, dbscanClusters strictLib borderFirstPoints 1 3 = some clusters ∧
      ∀ p : Nat, (∃ c ∈ clusters, p ∈ c) ↔
        (isCore borderFirstPoints 1 3 p = true ∨
          ∃ q, isCore borderFirstPoints 1 3 q = true ∧
            withinEps borderFirstPoints 1 q p = true) :=
  ⟨by decide!, Or.inr strictLib_contract, zero_lt_one,
    clustered_iff_core_or_border_eps_pos strictLib (Or.inr strictLib_contract)
      borderFirstPoints 1 3 zero_lt_one⟩

/-- C10 (counterexample): with the rectangle test of `rtreego`, `eps = 0` and `minPts = 1`,
no point of the chain input is found as its own neighbour; the run finds no cluster and
prints the empty list, so each of the five points is left out. -/
theorem minPts_one_counterexample :
    regionQuery strictLib chainPoints
        ((indexItems chainPoints 0).foldl strictLib.Insert strictLib.NewTree) 0 0 = some [] ∧
    dbscanClusters strictLib chainPoints 0 1 = some [] ∧
    main strictLib 0 1 (.ok chainPoints) = .printed [] ∧ chainPoints.length = 5 := by
  decide!

/-- C10 (amended): for `eps > 0`, with either rectangle test, when `minPts = 1` every point
index of the input is a member of some cluster. -/
theorem minPts_one_all_clustered_eps_pos (L : RtreeLib) (hL : L.Contract ∨ L.StrictContract)
    (points : List Point) (eps : ℚ) (heps : 0 < eps) :
    ∃ clusters, dbscanClusters L points eps 1 = some clusters ∧
      ∀ p : Nat, p < points.length → ∃ c ∈ clusters, p ∈ c := by
  obtain ⟨clusters, hrun, _, hcover⟩ := dbscanClusters_spec_pos L hL points eps 1 heps
  refine ⟨clusters, hrun, ?_⟩
  intro p hp
  have hself : p ∈ neighbourhood points eps p :=
    mem_neighbourhood.2 (withinEps_self (le_of_lt heps) hp)
  have hcore : isCore points eps 1 p = true := by
    simp only [isCore, decide_eq_true_eq]
    refine ⟨hp, ?_⟩
    have := List.length_pos_of_mem hself
    omega
  obtain ⟨c, hc, hpc, _⟩ := hcover p hcore
  exact ⟨c, hc, hpc⟩

/-- C10 (witness): with the rectangle test of `rtreego`, the chain points with
`eps = 0.001` and `minPts = 1` give five singleton clusters. -/
theorem minPts_one_all_clustered_eps_pos_witness :
    dbscanClusters strictLib chainPoints (1 / 1000) 1 = some [[0], [1], [2], [3], [4]] ∧
    (strictLib.Contract ∨ strictLib.StrictContract) ∧ (0 : ℚ) < 1 / 1000 ∧
    ∃ clusters, dbscanClusters strictLib chainPoints (1 / 1000) 1 = some clusters ∧
      ∀ p : Nat, p < chainPoints.length → ∃ c ∈ clusters, p ∈ c :=
  ⟨by decide!, Or.inr strictLib_contract, by norm_num,
    minPts_one_all_clustered_eps_pos strictLib (Or.inr strictLib_contract) chainPoints
      (1 / 1000) (by norm_num)⟩

/-- C11 (counterexample): with the rectangle test of `rtreego`, `eps = 0` and `minPts = 2`,
the three points of `coincidentPoints` at (0,0) and the two at (2,2) form no cluster: the
run returns the empty list. -/
theorem eps_zero_counterexample :
    (coincidentPoints.filter (fun p => decide (p.Lat = 0 ∧ p.Lon = 0))).length = 3 ∧
    (coincidentPoints.filter (fun p => decide (p.Lat = 2 ∧ p.Lon = 2))).length = 2 ∧
    regionQuery strictLib coincidentPoints
        ((indexItems coincidentPoints 0).foldl strictLib.Insert strictLib.NewTree) 0 0
      = some [] ∧
    dbscanClusters strictLib coincidentPoints 0 2 = some [] ∧
    main strictLib 0 2 (.ok coincidentPoints) = .printed [] := by
  decide!

/-- C11 (amended): with the rectangle test of `rtreego`, `eps = 0` and `minPts ≥ 1`,
`regionQuery` returns the empty list for every point, the clustering phase finds no cluster
and `dbscan` returns the empty list; so what is said of every cluster holds for lack of
clusters, and no group of coincident points forms a cluster. -/
theorem eps_zero_no_cluster (L : RtreeLib) (hL : L.StrictContract) (points : List Point)
    (minPts : Int) (hmin : 1 ≤ minPts) :
    (∀ i, i < points.length →
      regionQuery L points ((indexItems points 0).foldl L.Insert L.NewTree) i 0 = some []) ∧
    dbscanClusters L points 0 minPts = some [] ∧ dbscan L points 0 minPts = some [] ∧
    ∀ clusters, dbscanClusters L points 0 minPts = some clusters →
      ∀ c ∈ clusters, ∃ s, c.head? = some s ∧ c.Nodup ∧ minPts ≤ (c.length : Int) ∧
        ∀ m ∈ c, ∃ p q, points[s]? = some p ∧ points[m]? = some q ∧
          p.Lat = q.Lat ∧ p.Lon = q.Lon := by
  obtain ⟨h1, h2⟩ := dbscan_strict_zero L hL points minPts hmin
  refine ⟨fun i hi => regionQuery_strict_zero L hL points i hi, h1, h2, ?_⟩
  intro clusters hrun c hc
  rw [h1] at hrun
  cases hrun
  exact absurd hc (List.not_mem_nil _)

/-- C11 (witness): the amended statement for `coincidentPoints` and `minPts = 2`. -/
theorem eps_zero_no_cluster_witness :
    strictLib.StrictContract ∧ (1 : Int) ≤ 2 ∧
    ((∀ i, i < coincidentPoints.length →
      regionQuery strictLib coincidentPoints
        ((indexItems coincidentPoints 0).foldl strictLib.Insert strictLib.NewTree) i 0
        = some []) ∧
    dbscanClusters strictLib coincidentPoints 0 2 = some [] ∧
    dbscan strictLib coincidentPoints 0 2 = some [] ∧
    ∀ clusters, dbscanClusters strictLib coincidentPoints 0 2 = some clusters →
      ∀ c ∈ clusters, ∃ s, c.head? = some s ∧ c.Nodup ∧ (2 : Int) ≤ (c.length : Int) ∧
        ∀ m ∈ c, ∃ p q, coincidentPoints[s]? = some p ∧ coincidentPoints[m]? = some q ∧
          p.Lat = q.Lat ∧ p.Lon = q.Lon) :=
  ⟨strictLib_contract, by decide,
    eps_zero_no_cluster strictLib strictLib_contract coincidentPoints 2 (by decide)⟩

/-- C19 (counterexample): with the rectangle test of `rtreego`, `eps = 0` and `minPts = 2`,
index 1 of the bridge input is a core point (indices 1 and 2 are both at (-1,0)) and is a
member of no cluster, since the run finds none. -/
theorem core_in_exactly_one_cluster_counterexample :
    isCore bridgePoints 0 2 1 = true ∧ neighbourhood bridgePoints 0 1 = [1, 2] ∧
    dbscanClusters strictLib bridgePoints 0 2 = some [] := by
  decide!

/-- C19 (amended): for `eps > 0`, with either rectangle test, every core point is a member
of exactly one cluster, and is listed once in it. -/
theorem core_in_exactly_one_cluster_eps_pos (L : RtreeLib)
    (hL : L.Contract ∨ L.StrictContract) (points : List Point) (eps : ℚ) (minPts : Int)
    (heps : 0 < eps) :
    ∃ clusters, dbscanClusters L points eps minPts = some clusters ∧
      ∀ p, isCore points eps minPts p = true →
        ∃ (a : Nat) (c : List Nat), clusters[a]? = some c ∧ p ∈ c ∧ c.count p = 1 ∧
          ∀ (b : Nat) (c' : List Nat), clusters[b]? = some c' → p ∈ c' → b = a := by
  obtain ⟨clusters, hrun, hok, hcover⟩ := dbscanClusters_spec_pos L hL points eps minPts heps
  refine ⟨clusters, hrun, ?_⟩
  intro p hp
  obtain ⟨c, hc, hpc, _⟩ := hcover p hp
  obtain ⟨a, ha⟩ := List.mem_iff_getElem?.1 hc
  obtain ⟨_, _, _, hnodup, _⟩ := hok.char c hc
  exact ⟨a, c, ha, hpc, List.count_eq_one_of_mem hnodup hpc,
    fun b c' hb hpc' => hok.core_unique hb ha hp hpc' hpc⟩

/-- C19 (witness): the bridge input with the rectangle test of `rtreego`, `eps = 1` and
`minPts = 4`, whose core points are the indices 0 and 4. -/
theorem core_in_exactly_one_cluster_eps_pos_witness :
    dbscanClusters strictLib bridgePoints 1 4 = some [[0, 1, 2, 3], [4, 3, 5, 6]] ∧
    (strictLib.Contract ∨ strictLib.StrictContract) ∧ (0 : ℚ) < 1 ∧
    ∃ clusters, dbscanClusters strictLib bridgePoints 1 4 = some clusters ∧
      ∀ p, isCore bridgePoints 1 4 p = true →
        ∃ (a : Nat) (c : List Nat), clusters[a]? = some c ∧ p ∈ c ∧ c.count p = 1 ∧
          ∀ (b : Nat) (c' : List Nat), clusters[b]? = some c' → p ∈ c' → b = a :=
  ⟨by decide!, Or.inr strictLib_contract, zero_lt_one,
    core_in_exactly_one_cluster_eps_pos strictLib (Or.inr strictLib_contract) bridgePoints
      1 4 zero_lt_one⟩

end Boundary

end Clusterer
